import Mathlib

/-! couchtools: documents as directory trees

A shallow embedding of `couchtools.go` (download a CouchDB design document
into a directory tree, upload a directory tree as a design document) and
the properties of its path utilities, of `put`, of the serializer
`recurseDocument` and of the deserializing walk `RecursePath`.

Conventions of the embedding

* A Go `string` is a byte sequence; it is embedded as `Str = List Char`,
  one list element per byte.  All literals of the program (`"/"`, `".js"`,
  `"_design/"`, `"\n"`) are single-byte characters.
* A Go slice expression that is out of range panics; a panic (and the
  `panic("")` of `put`) is the `none` of an `Option`.
* `os.Exit(-1)` ends the run; functions that can reach it return an
  `Outcome`.
-/

namespace Couchtools

/-! ## Strings -/

/-- A Go string, one element per byte. -/
abbrev Str := List Char

/-- The Go slice expression `s[i:]`; out of range (`i < 0` or `i > len(s)`) panics. -/
def sliceFrom (s : Str) (i : Int) : Option Str :=
  if 0 ≤ i ∧ i ≤ (s.length : Int) then some (s.drop i.toNat) else none

/-- The Go slice expression `s[:j]`; out of range (`j < 0` or `j > len(s)`) panics. -/
def sliceTo (s : Str) (j : Int) : Option Str :=
  if 0 ≤ j ∧ j ≤ (s.length : Int) then some (s.take j.toNat) else none

/-- `strings.Split(s, sep)` for a one-byte separator: the pieces of `s` between
the occurrences of `sep`; never an empty list. -/
def Split (s : Str) (sep : Char) : List Str :=
  match s with
  | [] => [[]]
  | c :: cs =>
    if c = sep then [] :: Split cs sep
    else
      match Split cs sep with
      | [] => [[c]]
      | seg :: rest => (c :: seg) :: rest

/-- `strings.Join(segs, "/")`, used to write key-paths and file paths. -/
def joinSlash : List Str → Str
  | [] => []
  | [s] => s
  | s :: t :: rest => s ++ '/' :: joinSlash (t :: rest)

/-! ## `designDocumentName` and its regular expression -/

/-- Go errors are abstract values to this program; only their origin matters. -/
inductive GoError
  | regexpSyntax
  | badPattern
  | lstat (path : Str)
  | readFile (path : Str)
  | writeFile (path : Str)
  | mkdir (path : Str)
  | httpPut (url : Str)
deriving DecidableEq, Repr

/-- The instructions of the compiled pattern `^_design/(.*)$`: Go (RE2) syntax
without flags, so `^` is the beginning of the text, `$` the end of the text,
and `.` any character except a newline. -/
inductive Rx
  | bot
  | eot
  | lit (c : Char)
  | capAnyStar
deriving DecidableEq, Repr

/-- The greedy loop of `(.*)` followed by the continuation `k`: take one more
non-newline character when the rest of the pattern still matches after it,
otherwise stop here.  Returns the matched text and the text of group 1. -/
def starGreedy (k : Bool → Str → Option Str) : Bool → Str → Option (Str × Str)
  | atStart, [] => (k atStart []).map (fun m => (m, []))
  | atStart, c :: cs =>
    if c ≠ '\n' then
      match starGreedy k false cs with
      | some (m, g) => some (c :: m, c :: g)
      | none => (k atStart (c :: cs)).map (fun m => (m, []))
    else (k atStart (c :: cs)).map (fun m => (m, []))

/-- Match a sequence of instructions without a group at the head of the input;
returns the matched text. -/
def matchPlain : List Rx → Bool → Str → Option Str
  | [], _, _ => some []
  | .bot :: rs, atStart, s => if atStart then matchPlain rs atStart s else none
  | .eot :: rs, atStart, s => if s = [] then matchPlain rs atStart s else none
  | .lit c :: rs, _, s =>
    match s with
    | [] => none
    | d :: s' => if d = c then (matchPlain rs false s').map (fun m => d :: m) else none
  | .capAnyStar :: rs, atStart, s =>
    (starGreedy (matchPlain rs) atStart s).map (fun r => r.1)

/-- Match a sequence of instructions at the head of the input; returns the
matched text and the text of group 1 (the pattern has a single group). -/
def matchSeq : List Rx → Bool → Str → Option (Str × Str)
  | [], _, _ => some ([], [])
  | .bot :: rs, atStart, s => if atStart then matchSeq rs atStart s else none
  | .eot :: rs, atStart, s => if s = [] then matchSeq rs atStart s else none
  | .lit c :: rs, _, s =>
    match s with
    | [] => none
    | d :: s' => if d = c then (matchSeq rs false s').map (fun r => (d :: r.1, r.2)) else none
  | .capAnyStar :: rs, atStart, s => starGreedy (matchPlain rs) atStart s

/-- The leftmost match: try the pattern at every offset of the input, the
first offset being the beginning of the text. -/
def findFrom (prog : List Rx) : Bool → Str → Option (Str × Str)
  | atStart, [] => matchSeq prog atStart []
  | atStart, c :: t =>
    match matchSeq prog atStart (c :: t) with
    | some r => some r
    | none => findFrom prog false t

/-- `(*Regexp).FindStringSubmatch`: the whole match followed by group 1, or
`nil` when the pattern matches nowhere. -/
def FindStringSubmatch (prog : List Rx) (s : Str) : List Str :=
  match findFrom prog true s with
  | some (whole, g) => [whole, g]
  | none => []

/-- `regexp.Compile("^_design/(.*)$")`: the pattern is a constant of the
program and compiles to this instruction sequence. -/
def compileDesignPattern : Except GoError (List Rx) :=
  .ok (Rx.bot :: ("_design/".toList.map Rx.lit ++ [Rx.capAnyStar, Rx.eot]))

/-- `designDocumentName` (couchtools.go, lines 108-119); the result is the Go
pair `(string, error)`. -/
def designDocumentName (id : Str) : Str × Option GoError :=
  match compileDesignPattern with
  | .error err => ([], some err)
  | .ok r =>
    let captured := FindStringSubmatch r id
    if captured.length = 2 then (captured.getD 1 [], none) else (id, none)

/-! ## `removeBasePath` -/

/-- `removeBasePath` (lines 216-225).  The three `log.Printf` calls evaluate
their arguments before the branch: `basePath[len(basePath)-1:]` on line 218 and
both `path[len(basePath):]` and `path[len(basePath)+1:]` on line 219. -/
def removeBasePath (basePath path : Str) : Option Str := do
  let last ← sliceFrom basePath ((basePath.length : Int) - 1)
  let withSep ← sliceFrom path (basePath.length : Int)
  let withoutSep ← sliceFrom path ((basePath.length : Int) + 1)
  if last = "/".toList then some withSep else some withoutSep

/-! ## File names built by the serializer -/

/-- The file of a leaf: `base + "/" + path + "/" + key + ".js"` (line 125). -/
def leafFilename (base path key : Str) : Str :=
  base ++ "/".toList ++ path ++ "/".toList ++ key ++ ".js".toList

/-- The directory of a nested object: `base + "/" + path + "/" + key` (line 135). -/
def objectDirname (base path key : Str) : Str :=
  base ++ "/".toList ++ path ++ "/".toList ++ key

/-- The `path` argument of the recursive call: `path + "/" + key` (line 142). -/
def childPath (path key : Str) : Str :=
  path ++ "/".toList ++ key

/-- The key `RecursePath` derives from a matching file (line 208):
`removeBasePath(path, fp[:len(fp)-3])`. -/
def fileKey (path fp : Str) : Option Str :=
  (sliceTo fp ((fp.length : Int) - 3)).bind (removeBasePath path)

/-! ## Documents -/

/-- The JSON kinds that are neither a string nor an object. -/
inductive Kind
  | number
  | boolean
  | array
  | null
deriving DecidableEq, Repr

/-- A Go `interface{}` value of a decoded document: a `string`, a
`map[string]interface{}` or a value of another kind.  A map is embedded as
an association list with one pair per key and read with `mapGet`; maps are
never `nil` and no map is shared between two places of a document. -/
inductive Value
  | str (s : Str)
  | obj (m : List (Str × Value))
  | other (kind : Kind)
deriving Repr

mutual
/-- Equality of values is decidable. -/
def Value.decEq : (a b : Value) → Decidable (a = b)
  | .str s, .str t =>
    if h : s = t then isTrue (by rw [h]) else isFalse (fun e => h (Value.str.inj e))
  | .obj m, .obj n =>
    match decEqEntries m n with
    | isTrue h => isTrue (by rw [h])
    | isFalse h => isFalse (fun e => h (Value.obj.inj e))
  | .other k, .other l =>
    if h : k = l then isTrue (by rw [h]) else isFalse (fun e => h (Value.other.inj e))
  | .str _, .obj _ => isFalse (fun e => Value.noConfusion e)
  | .str _, .other _ => isFalse (fun e => Value.noConfusion e)
  | .obj _, .str _ => isFalse (fun e => Value.noConfusion e)
  | .obj _, .other _ => isFalse (fun e => Value.noConfusion e)
  | .other _, .str _ => isFalse (fun e => Value.noConfusion e)
  | .other _, .obj _ => isFalse (fun e => Value.noConfusion e)
/-- Equality of maps, as lists of pairs, is decidable. -/
def decEqEntries : (m n : List (Str × Value)) → Decidable (m = n)
  | [], [] => isTrue rfl
  | [], _ :: _ => isFalse (fun e => List.noConfusion e)
  | _ :: _, [] => isFalse (fun e => List.noConfusion e)
  | (k, v) :: m, (k', v') :: n =>
    if hk : k = k' then
      match Value.decEq v v' with
      | isTrue hv =>
        match decEqEntries m n with
        | isTrue hm => isTrue (by rw [hk, hv, hm])
        | isFalse hm => isFalse (fun e => hm (List.cons.inj e).2)
      | isFalse hv => isFalse (fun e => hv (Prod.mk.inj (List.cons.inj e).1).2)
    else isFalse (fun e => hk (Prod.mk.inj (List.cons.inj e).1).1)
end

instance : DecidableEq Value := Value.decEq

/-- A Go `map[string]interface{}`. -/
abbrev Doc := List (Str × Value)

/-- The map read `dic[k]` on an association list: `none` stands for the nil
interface of an absent key.  Directories are read the same way. -/
def mapGet {α : Type} : List (Str × α) → Str → Option α
  | [], _ => none
  | (k', v) :: rest, k => if k' = k then some v else mapGet rest k

/-- The map write `dic[k] = v`: replaces the value of an existing key, adds the
key otherwise. -/
def mapSet {α : Type} : List (Str × α) → Str → α → List (Str × α)
  | [], k, v => [(k, v)]
  | (k', v') :: rest, k, v => if k' = k then (k, v) :: rest else (k', v') :: mapSet rest k v

/-- The map delete `delete(dic, k)`. -/
def mapDelete {α : Type} : List (Str × α) → Str → List (Str × α)
  | [], _ => []
  | (k', v') :: rest, k => if k' = k then mapDelete rest k else (k', v') :: mapDelete rest k

/-- The loop of `put` over `keys[:len(keys)-1]` followed by the final
assignment (lines 229-238).  `dic = d` moves to the nested map, which Go
mutates in place; in the embedding the updated nested map is stored back under
its key.  Anything but a map under an intermediate key, the nil of an absent key
included, reaches `panic("")`. -/
def putLoop : List Str → Str → Value → Doc → Option Doc
  | [], last, value, dic => some (mapSet dic last value)
  | k :: ks, last, value, dic =>
    match mapGet dic k with
    | some (.obj d) => (putLoop ks last value d).map (fun d' => mapSet dic k (.obj d'))
    | _ => none

/-- `put` (lines 227-239); `none` is the panic. -/
def put (key : Str) (value : Value) (dic : Doc) : Option Doc :=
  let keys := Split key '/'
  putLoop keys.dropLast (keys.getLastD []) value dic

/-- The value a document holds at a key-path, read key by key. -/
def getPath : List Str → Value → Option Value
  | [], v => some v
  | k :: ks, .obj m =>
    match mapGet m k with
    | some v => getPath ks v
    | none => none
  | _ :: _, _ => none

/-- Whether a looked-up value is an object. -/
def isObject : Option Value → Bool
  | some (.obj _) => true
  | _ => false

/-! ## The file system

The file system is a tree of directories and files; the working directory
of the process is the root of the tree and there are no symbolic links, so a
path, rooted or not, names the entry reached from the root through its
components.  Names are byte strings, compared exactly.  A system call refuses
a path that is empty, holds a NUL byte, is `PATH_MAX` bytes long or more, or
has an element longer than `NAME_MAX` bytes (the limits of Linux); beyond
that, creating a directory or writing a file fails only for the shape of the
tree (a file on the way, a directory under the name of the file), and reading
a file fails only when the file is marked unreadable. -/

/-- An entry of the file system.  A file that cannot be read (permissions, I/O
error) has `readable = false`. -/
inductive Node
  | file (content : Str) (readable : Bool)
  | dir (entries : List (Str × Node))
deriving Repr

mutual
/-- Equality of file-system entries is decidable. -/
def Node.decEq : (a b : Node) → Decidable (a = b)
  | .file c r, .file c' r' =>
    if h : c = c' ∧ r = r' then isTrue (by rw [h.1, h.2])
    else isFalse (fun e => h ⟨(Node.file.inj e).1, (Node.file.inj e).2⟩)
  | .dir m, .dir n =>
    match decEqNodes m n with
    | isTrue h => isTrue (by rw [h])
    | isFalse h => isFalse (fun e => h (Node.dir.inj e))
  | .file _ _, .dir _ => isFalse (fun e => Node.noConfusion e)
  | .dir _, .file _ _ => isFalse (fun e => Node.noConfusion e)
/-- Equality of directory listings is decidable. -/
def decEqNodes : (m n : List (Str × Node)) → Decidable (m = n)
  | [], [] => isTrue rfl
  | [], _ :: _ => isFalse (fun e => List.noConfusion e)
  | _ :: _, [] => isFalse (fun e => List.noConfusion e)
  | (k, v) :: m, (k', v') :: n =>
    if hk : k = k' then
      match Node.decEq v v' with
      | isTrue hv =>
        match decEqNodes m n with
        | isTrue hm => isTrue (by rw [hk, hv, hm])
        | isFalse hm => isFalse (fun e => hm (List.cons.inj e).2)
      | isFalse hv => isFalse (fun e => hv (Prod.mk.inj (List.cons.inj e).1).2)
    else isFalse (fun e => hk (Prod.mk.inj (List.cons.inj e).1).1)
end

instance : DecidableEq Node := Node.decEq

/-- The longest path a system call accepts, the final NUL byte counted. -/
def PATH_MAX : Nat := 4096

/-- The longest name of a directory entry, in bytes. -/
def NAME_MAX : Nat := 255

/-- The NUL byte. -/
def nul : Char := Char.ofNat 0

/-- A path a system call accepts: not empty, without NUL byte, shorter than
`PATH_MAX`, every element at most `NAME_MAX` bytes long. -/
def validPath (path : Str) : Bool :=
  decide (path ≠ [] ∧ nul ∉ path ∧ path.length < PATH_MAX ∧
    ∀ c ∈ Split path '/', c.length ≤ NAME_MAX)

/-- One step of the lexical processing of a path, shared by path resolution and
by `filepath.Clean`: an empty element and `.` are dropped, `..` removes the
element before it (at the start of a rooted path it is dropped, at the start of
a relative path or after another `..` it is kept), any other element is
appended. -/
def cleanStep (rooted : Bool) (stack : List Str) (c : Str) : List Str :=
  if c = [] ∨ c = ".".toList then stack
  else if c = "..".toList then
    match stack.getLast? with
    | none => if rooted then stack else stack ++ [c]
    | some l => if l = "..".toList then stack ++ [c] else stack.dropLast
  else stack ++ [c]

/-- The components a path resolves through, from the root of the tree. -/
def components (path : Str) : List Str :=
  (Split path '/').foldl (cleanStep true) []

/-- `filepath.Clean` (Unix): the shortest path name equivalent to `path` by
lexical processing; `.` for an empty result. -/
def Clean (path : Str) : Str :=
  if path = [] then ".".toList
  else
    let rooted : Bool := path.head? = some '/'
    let out := (Split path '/').foldl (cleanStep rooted) []
    let s := (if rooted then "/".toList else []) ++ joinSlash out
    if s = [] then ".".toList else s

/-- `filepath.Join(dir, name)`: the non-empty elements joined by the separator,
then cleaned. -/
def Join (dir name : Str) : Str :=
  if dir = [] then (if name = [] then [] else Clean name)
  else if name = [] then Clean dir
  else Clean (dir ++ "/".toList ++ name)

/-- The entry reached from `n` through the components `cs`. -/
def Node.get : List Str → Node → Option Node
  | [], n => some n
  | c :: cs, .dir es =>
    match mapGet es c with
    | some child => Node.get cs child
    | none => none
  | _ :: _, .file _ _ => none

/-- `os.MkdirAll` on components: existing directories are kept, missing ones
are created, a file on the way is an error (`none`). -/
def mkdirAllAt : List Str → Node → Option Node
  | [], .dir es => some (.dir es)
  | [], .file _ _ => none
  | c :: cs, .dir es =>
    match mapGet es c with
    | some child => (mkdirAllAt cs child).map (fun ch => .dir (mapSet es c ch))
    | none => (mkdirAllAt cs (.dir [])).map (fun ch => .dir (mapSet es c ch))
  | _ :: _, .file _ _ => none

/-- `ioutil.WriteFile` on components (create or truncate): the directory of
the file must exist, and the name must not be that of a directory. -/
def writeFileAt : List Str → Str → Node → Option Node
  | [], _, _ => none
  | [c], data, .dir es =>
    match mapGet es c with
    | some (.dir _) => none
    | some (.file _ r) => some (.dir (mapSet es c (.file data r)))
    | none => some (.dir (mapSet es c (.file data true)))
  | c :: c' :: cs, data, .dir es =>
    match mapGet es c with
    | some child => (writeFileAt (c' :: cs) data child).map (fun ch => .dir (mapSet es c ch))
    | none => none
  | _ :: _, _, .file _ _ => none

/-- `os.MkdirAll(path, 0755)`.  A call that fails leaves the tree as it was:
the program exits right after it. -/
def MkdirAll (fs : Node) (path : Str) : Except GoError Node :=
  if validPath path then
    match mkdirAllAt (components path) fs with
    | some fs' => .ok fs'
    | none => .error (.mkdir path)
  else .error (.mkdir path)

/-- `ioutil.WriteFile(filename, data, 0644)`. -/
def WriteFile (fs : Node) (filename data : Str) : Except GoError Node :=
  if validPath filename then
    match writeFileAt (components filename) data fs with
    | some fs' => .ok fs'
    | none => .error (.writeFile filename)
  else .error (.writeFile filename)

/-- `ioutil.ReadFile(filename)`. -/
def ReadFile (fs : Node) (filename : Str) : Except GoError Str :=
  if validPath filename then
    match Node.get (components filename) fs with
    | some (.file content true) => .ok content
    | _ => .error (.readFile filename)
  else .error (.readFile filename)

/-- `os.Lstat(path)`: the entry the path names. -/
def Lstat (fs : Node) (path : Str) : Except GoError Node :=
  if validPath path then
    match Node.get (components path) fs with
    | some n => .ok n
    | none => .error (.lstat path)
  else .error (.lstat path)

/-! ## The serializer `recurseDocument` -/

/-- An argument of a `log.Printf` call. -/
inductive LogArg
  | s (text : Str)
  | n (number : Int)
  | e (err : GoError)
deriving DecidableEq, Repr

/-- A `log.Printf` call: its format, which starts with the level, and its
arguments. -/
structure LogLine where
  format : Str
  args : List LogArg
deriving DecidableEq, Repr

/-- What the serializer acts on: the file system and the log. -/
structure World where
  fs : Node
  log : List LogLine
deriving DecidableEq, Repr

/-- `log.Printf(format, args...)`. -/
def World.printf (w : World) (format : Str) (args : List LogArg) : World :=
  { w with log := w.log ++ [⟨format, args⟩] }

/-- How a run of the serializer ends: it returns, it leaves the process through
`os.Exit`, or it panics. -/
inductive Outcome
  | done (w : World)
  | exit (code : Int) (w : World)
  | panic
deriving DecidableEq, Repr

mutual
/-- `recurseDocument` (lines 121-148): the `range` over the map.  Go does not
fix the order in which the pairs are visited; here it is the order of the
list, so a statement for every list is a statement for every order. -/
def recurseDocument : Doc → Str → Str → World → Outcome
  | [], _, _, w => .done w
  | (key, value) :: rest, base, path, w =>
    match recurseEntry value key base path w with
    | .done w1 => recurseDocument rest base path w1
    | stopped => stopped
/-- The body of the loop of `recurseDocument` (lines 123-146): the type switch
on the value of `key`.  Its `default` case (line 145) logs and lets the loop
go on. -/
def recurseEntry : Value → Str → Str → Str → World → Outcome
  | .str child, key, base, path, w =>
    let filename := leafFilename base path key
    match sliceFrom filename ((base.length : Int) + 1) with
    | none => .panic
    | some shown =>
      let w1 := w.printf "[INFO] %5d bytes <- %s".toList [.n child.length, .s shown]
      match WriteFile w1.fs filename child with
      | .error writeError =>
        .exit (-1) (w1.printf "[ERROR] writing file %s >>> %#v".toList [.s filename, .e writeError])
      | .ok fs' => .done { w1 with fs := fs' }
  | .obj child, key, base, path, w =>
    let dirname := objectDirname base path key
    let w1 := w.printf "[DEBUG] mkdir %s".toList [.s dirname]
    match MkdirAll w1.fs dirname with
    | .error mkdirErr =>
      .exit (-1) (w1.printf "[ERROR] creating %s >>> %#v".toList [.s dirname, .e mkdirErr])
    | .ok fs' => recurseDocument child base (childPath path key) { w1 with fs := fs' }
  | .other _, key, base, path, w =>
    .done (w.printf "[ERROR] %s is trouble!".toList [.s (objectDirname base path key)])
end

/-! ## The deserializing walk -/

/-- The loop of `*` in `filepath.Match`: the star takes any sequence of
characters other than the separator, the continuation `k` matches the rest. -/
def starMatch (k : Str → Bool) : Str → Bool
  | [] => k []
  | c :: s => k (c :: s) || (c ≠ '/' && starMatch k s)

/-- The matcher of `filepath.Match` for patterns made of `*`, `?` and literal
characters. -/
def globMatch : Str → Str → Bool
  | [], s => s.isEmpty
  | p :: ps, s =>
    if p = '*' then starMatch (globMatch ps) s
    else
      match s with
      | [] => false
      | c :: s' =>
        if p = '?' then c ≠ '/' && globMatch ps s'
        else p = c && globMatch ps s'

/-- `filepath.Match(pattern, name)`.  The program's only pattern is `"*.js"`;
character classes and escapes are not embedded, and a pattern that
contains `[` or `\` is reported as `ErrBadPattern`. -/
def Match (pattern name : Str) : Except GoError Bool :=
  if '[' ∈ pattern ∨ '\\' ∈ pattern then .error .badPattern
  else .ok (globMatch pattern name)

/-- The part of `os.FileInfo` the program reads. -/
structure FileInfo where
  name : Str
  isDir : Bool
deriving DecidableEq, Repr

/-- What a call of the walk function leaves: the error it returns and the
document map it has filled so far, or a panic. -/
inductive CbRes
  | ret (err : Option GoError) (desingDocuments : Doc)
  | panic
deriving DecidableEq, Repr

/-- The closure `RecursePath(path, filter, desingDocuments)` (lines 180-214),
applied to `(fp, fi, err)` in the file system `fs`; the map it fills is passed
in and returned.  Lines 197 and 198 evaluate `fp[len(path):]` and
`removeBasePath(path, fp)` for the log before the branch.  Log lines are not
recorded here. -/
def RecursePath (fs : Node) (path filter : Str)
    (fp : Str) (fi : Option FileInfo) (err : Option GoError) (desingDocuments : Doc) : CbRes :=
  match err with
  | some _ => .ret none desingDocuments
  | none =>
    if fp = path then .ret none desingDocuments
    else
      match fi with
      | none => .panic
      | some fi =>
        match Match filter fi.name with
        | .error e => .ret (some e) desingDocuments
        | .ok matched =>
          match sliceFrom fp (path.length : Int), removeBasePath path fp with
          | some _, some key =>
            if fi.isDir then
              match put key (.obj []) desingDocuments with
              | some d => .ret none d
              | none => .panic
            else if matched then
              match ReadFile fs fp with
              | .error readError => .ret (some readError) desingDocuments
              | .ok rawContent =>
                match fileKey path fp with
                | none => .panic
                | some key =>
                  match put key (.str rawContent) desingDocuments with
                  | some d => .ret none d
                  | none => .panic
            else .ret none desingDocuments
          | _, _ => .panic

/-- The order of `sort.Strings`: byte-wise lexicographic. -/
def strLe : Str → Str → Bool
  | [], _ => true
  | _ :: _, [] => false
  | a :: s, b :: t => if a = b then strLe s t else decide (a.toNat < b.toNat)

/-- The entries of a directory in the order of `readDirNames`: sorted by name. -/
def sortByName {α : Type} (l : List (Str × α)) : List (Str × α) :=
  l.insertionSort (fun a b => strLe a.1 b.1 = true)

/-- The type of a walk function with the document map passed through. -/
abbrev WalkFunc := Str → Option FileInfo → Option GoError → Doc → CbRes

/-- The loop of `walk` over the sorted names: each entry is walked at
`Join(path, name)`; when `lstat` refuses that path the walk function is called
with the error instead; the first error returned ends the walk. -/
def walkNames (walkFn : WalkFunc) : List (Str × (Str → Doc → CbRes)) → Str → Doc → CbRes
  | [], _, d => .ret none d
  | (name, walkEntry) :: rest, path, d =>
    match (if validPath (Join path name) then walkEntry (Join path name) d
      else walkFn (Join path name) none (some (.lstat (Join path name))) d) with
    | .ret none d1 => walkNames walkFn rest path d1
    | stopped => stopped

mutual
/-- The recursion `walk` of `filepath.Walk` over an entry whose `Lstat`
succeeded: the walk function is called on the entry, then, for a directory, on
its entries in the order of their names (every directory of the tree can be
listed, and every entry listed exists).  The walk function of this program never returns `SkipDir`. -/
def walk (walkFn : WalkFunc) : Node → Str → Str → Doc → CbRes
  | .file _ _, path, name, d => walkFn path (some ⟨name, false⟩) none d
  | .dir es, path, name, d =>
    match walkFn path (some ⟨name, true⟩) none d with
    | .ret none d1 => walkNames walkFn (sortByName (walkEntries walkFn es)) path d1
    | stopped => stopped
/-- The walks of the entries of a directory, by name. -/
def walkEntries (walkFn : WalkFunc) : List (Str × Node) → List (Str × (Str → Doc → CbRes))
  | [] => []
  | (name, child) :: rest =>
    (name, fun filename d => walk walkFn child filename name d) :: walkEntries walkFn rest
end

/-- `filepath.Walk(root, walkFn)`: when `Lstat(root)` fails the walk function
is called once with the error. -/
def Walk (fs : Node) (root : Str) (walkFn : WalkFunc) (d : Doc) : CbRes :=
  match Lstat fs root with
  | .error e => walkFn root none (some e) d
  | .ok node => walk walkFn node root ((Split root '/').getLastD []) d

/-- The deserialization of `upload` (lines 157-160): the walk of `fullpath`
with `RecursePath(fullpath, "*.js", desingDocuments)` over an empty map. -/
def deserialize (fs : Node) (fullpath : Str) : CbRes :=
  Walk fs fullpath (RecursePath fs fullpath "*.js".toList) []

/-! ## `upload` -/

/-- The reply of the sink to a `PUT` (lines 16-20). -/
structure PutJsonResult where
  ok : Bool
  id : Str
  rev : Str
deriving DecidableEq, Repr

/-- The collaborator `client.Put(url, body, &response)`. -/
abbrev SinkPut := Str → Doc → Except GoError PutJsonResult

/-- How a run of `upload` ends, with the requests it sent to the sink and the
file system it leaves. -/
inductive UploadEnd
  | done
  | exit (code : Int)
  | panic
deriving DecidableEq, Repr

/-- A run of `upload`: the requests sent to the sink, in order, the file
system left, and how the run ended. -/
structure UploadRun where
  sent : List (Str × Doc)
  fs : Node
  ending : UploadEnd
deriving DecidableEq, Repr

/-- `upload` (lines 150-178).  The value `filepath.Walk` returns is not read
(line 160). -/
def upload (clientPut : SinkPut) (database path documentId : Str) (ignoreRev : Bool)
    (fs : Node) : UploadRun :=
  match designDocumentName documentId with
  | (_, some _) => ⟨[], fs, .exit (-1)⟩
  | (designDocName, none) =>
    let fullpath := path ++ "/".toList ++ database ++ "/".toList ++ designDocName
    match Walk fs fullpath (RecursePath fs fullpath "*.js".toList) [] with
    | .panic => ⟨[], fs, .panic⟩
    | .ret _ walked =>
      let desingDocuments := if ignoreRev = true then mapDelete walked "_rev".toList else walked
      let url := "/".toList ++ database ++ "/".toList ++ documentId
      match clientPut url desingDocuments with
      | .error _ => ⟨[(url, desingDocuments)], fs, .exit (-1)⟩
      | .ok response =>
        match WriteFile fs (fullpath ++ "/_rev.js".toList) response.rev with
        | .error _ => ⟨[(url, desingDocuments)], fs, .exit (-1)⟩
        | .ok fs' => ⟨[(url, desingDocuments)], fs', .done⟩

/-! ## Predicates and reference functions of the statements -/

/-- A name a directory entry can have and that `filepath.Clean` leaves alone:
not empty, without separator, and neither `.` nor `..`. -/
def plainName (n : Str) : Bool :=
  decide (n ≠ [] ∧ '/' ∉ n ∧ n ≠ ".".toList ∧ n ≠ "..".toList)

/-- A name a directory entry can have: plain, without NUL byte, at most
`NAME_MAX` bytes long. -/
def validName (n : Str) : Bool :=
  plainName n && decide (nul ∉ n ∧ n.length ≤ NAME_MAX)

/-- The root of a walk without its final separator, when it has one. -/
def stem (root : Str) : Str :=
  if root.getLast? = some '/' then root.dropLast else root

/-- A root under which `filepath.Walk` hands out paths that begin with the
root: the root directory `/`, or a path that `filepath.Clean` leaves unchanged,
other than `.` and `/`, with or without one more separator at its end. -/
def walkRoot (root : Str) : Bool :=
  decide (root = "/".toList ∨
    (Clean (stem root) = stem root ∧ stem root ≠ ".".toList ∧ stem root ≠ "/".toList))

/-- A stem of a walk: what `walkRoot` asks of the root without its final
separator. -/
def Stable (p : Str) : Prop :=
  Clean p = p ∧ p ≠ ".".toList ∧ p ≠ "/".toList

/-- A path that leaves `room` bytes below `PATH_MAX` and has neither a NUL byte
nor an element over `NAME_MAX`. -/
def PathOK (p : Str) (room : Nat) : Prop :=
  nul ∉ p ∧ (∀ c ∈ Split p '/', c.length ≤ NAME_MAX) ∧ p.length + room < PATH_MAX

mutual
/-- `reflect.DeepEqual` on document values: equal strings, maps of the same
size whose keys carry deeply equal values.  Values of the other kinds are
compared by kind only, their content is not embedded. -/
def deepEqual : Value → Value → Bool
  | .str a, b =>
    match b with
    | .str b' => decide (a = b')
    | _ => false
  | .obj m, b =>
    match b with
    | .obj n => decide (m.length = n.length) && subDoc m n
    | _ => false
  | .other k, b =>
    match b with
    | .other l => decide (k = l)
    | _ => false
/-- Every key of the first map is a key of the second, with a deeply equal
value. -/
def subDoc : Doc → Doc → Bool
  | [], _ => true
  | (k, v) :: rest, n =>
    (match mapGet n k with
      | some v' => deepEqual v v'
      | none => false) && subDoc rest n
end

/-- The name of the directory entry the serializer makes for a pair of a
document: `key.js` for a leaf, `key` for an object. -/
def entryName : Str × Value → Str
  | (k, .str _) => k ++ ".js".toList
  | (k, _) => k

/-- Whether a pair can be written as a directory entry: the key is not empty
and the name of the entry is a valid name (so the key has neither separator
nor NUL byte, and an object key is neither `.` nor `..`). -/
def keyOK (e : Str × Value) : Bool :=
  decide (e.1 ≠ []) && validName (entryName e)

mutual
/-- A value the serializer maps one-to-one to a directory tree when `room`
bytes of path are left below its directory: values are Leaf strings or
Objects, every map has one pair per key, every pair can be written as a
directory entry whose path fits, and no two pairs of a map get the same entry
name (an object key is never a leaf key followed by `.js`). -/
def serializable : Value → Nat → Bool
  | .str _, _ => true
  | .obj m, room =>
    serializableDoc m room && decide ((m.map Prod.fst).Nodup)
      && decide ((m.map entryName).Nodup)
  | .other _, _ => false
/-- The pairs of a serializable map. -/
def serializableDoc : Doc → Nat → Bool
  | [], _ => true
  | (k, v) :: rest, room =>
    keyOK (k, v) && decide ((entryName (k, v)).length + 1 ≤ room)
      && serializable v (room - ((entryName (k, v)).length + 1))
      && serializableDoc rest room
end

/-- Whether the entry named `n` gets a key of its own: a file is not the bare
`.js`, whose key would be empty. -/
def hasKey : Node → Str → Bool
  | .file _ _, n => decide (n ≠ ".js".toList)
  | .dir _, _ => true

mutual
/-- A directory tree the walk reads in full when `room` bytes of path are left
below its root: the names of a directory are valid and distinct, no file is
the bare `.js`, every path fits, and every file can be read. -/
def Node.walkable : Node → Nat → Bool
  | .file _ r, _ => r
  | .dir es, room => entriesWalkable es room && decide ((es.map Prod.fst).Nodup)
/-- The entries of a walkable directory. -/
def entriesWalkable : List (Str × Node) → Nat → Bool
  | [], _ => true
  | (n, c) :: rest, room =>
    validName n && hasKey c n && decide (n.length + 1 ≤ room)
      && c.walkable (room - (n.length + 1)) && entriesWalkable rest room
end

/-- One binding written into a map with `mapSet`; an entry without binding (a
file the filter does not match) adds nothing. -/
def addBinding (d : Doc) (e : Str × Option (Str × Value)) : Doc :=
  match e.2 with
  | some (k, v) => mapSet d k v
  | none => d

/-- The map a sequence of bindings builds, each binding written in turn. -/
def buildDoc (l : List (Str × Option (Str × Value))) : Doc :=
  l.foldl addBinding []

mutual
/-- The binding an entry named `n` adds to the object of its directory: a file
that matches `*.js` binds its name without the last three bytes to its
content, a directory binds its name to the object of its own entries, taken in
the order of their names. -/
def binding : Node → Str → Option (Str × Value)
  | .file c _, n =>
    if globMatch "*.js".toList n then some (n.take (n.length - 3), Value.str c) else none
  | .dir es, n => some (n, Value.obj (buildDoc (sortByName (bindings es))))
/-- The bindings of the entries of a directory, by name. -/
def bindings : List (Str × Node) → List (Str × Option (Str × Value))
  | [] => []
  | (n, c) :: rest => (n, binding c n) :: bindings rest
end

mutual
/-- The directory entries the serializer makes for a document, in the order of
its pairs. -/
def treeOf : Doc → List (Str × Node)
  | [] => []
  | (k, v) :: rest => treeOfEntry v k ++ treeOf rest
/-- The directory entry the serializer makes for the value of a key. -/
def treeOfEntry : Value → Str → List (Str × Node)
  | .str s, k => [(k ++ ".js".toList, Node.file s true)]
  | .obj m, k => [(k, Node.dir (treeOf m))]
  | .other _, _ => []
end

/-- The file system with the entry at the components `cs` replaced. -/
def Node.setAt : List Str → Node → Node → Node
  | [], new, _ => new
  | c :: cs, new, .dir es =>
    match mapGet es c with
    | some child => .dir (mapSet es c (Node.setAt cs new child))
    | none => .dir es
  | _ :: _, _, .file c r => .file c r

/-- The path of the entry with key-path `ks` below the root `r` of a walk. -/
def pathOf (r : Str) (ks : List Str) : Str :=
  ks.foldl childPath r

/-- The effect on the document map of visiting an entry whose directory has
the key-path `ks`: its binding is written below `ks` by the loop of `put`. -/
def applyBinding (ks : List Str) (b : Option (Str × Value)) (d : Doc) : Option Doc :=
  match b with
  | none => some d
  | some (k, v) => putLoop ks k v d

/-- The effect of visiting the entries of a directory in turn. -/
def applyAll (ks : List Str) : List (Str × Option (Str × Value)) → Doc → Option Doc
  | [], d => some d
  | e :: rest, d =>
    match applyBinding ks e.2 d with
    | some d1 => applyAll ks rest d1
    | none => none

/-- The result of a walk that either ends without error or panics. -/
def walkResult : Option Doc → CbRes
  | some d => .ret none d
  | none => .panic

/-- The property of an entry that the walk lemma establishes: below a root
`root`, the walk of the entry named `n` in the directory of key-path `ks` is
the writing of its binding. -/
def WalkSpec (fs : Node) (root : Str) (node : Node) : Prop :=
  ∀ (room : Nat) (ks : List Str) (n : Str) (d : Doc),
    node.walkable room = true →
    (∀ k ∈ ks, plainName k = true) → validName n = true → hasKey node n = true →
    PathOK (pathOf (stem root) (ks ++ [n])) room →
    Node.get (components (pathOf (stem root) (ks ++ [n]))) fs = some node →
    walk (RecursePath fs root "*.js".toList) node (pathOf (stem root) (ks ++ [n])) n d
      = walkResult (applyBinding ks (binding node n) d)

/-- The directory entry the serializer makes for a pair whose value is a Leaf
string or an Object. -/
def entryNode : Str × Value → Str × Node
  | (k, .str s) => (k ++ ".js".toList, Node.file s true)
  | (k, .obj m) => (k, Node.dir (treeOf m))
  | (k, .other _) => (k, Node.dir [])

/-- The value the walk binds to a key whose pair was serialized: the string of
a Leaf, the object read back from the directory of an Object. -/
def valueOf : Value → Value
  | .str s => .str s
  | .obj m => .obj (buildDoc (sortByName (bindings (treeOf m))))
  | .other k => .other k


/-- The exit code of a run that ended in `os.Exit`. -/
def Outcome.exitCode : Outcome → Option Int
  | .exit c _ => some c
  | _ => none

/-- The document that holds `leaf` below `n` nested Objects, each under the
key `key`. -/
def nestedDoc (key : Str) (leaf : Doc) : Nat → Doc
  | 0 => leaf
  | n + 1 => [(key, .obj (nestedDoc key leaf n))]
/-! # Theorems -/

/-! ## Strings and the pattern -/

theorem Split_ne_nil (s : Str) (sep : Char) : Split s sep ≠ [] := by
  induction s with
  | nil => simp [Split]
  | cons c cs ih =>
    unfold Split
    split_ifs
    · simp
    · split <;> simp

theorem Split_no_sep (s : Str) (sep : Char) (h : sep ∉ s) : Split s sep = [s] := by
  induction s with
  | nil => simp [Split]
  | cons c cs ih =>
    have hc : c ≠ sep := fun e => h (by simp [e])
    have hcs : sep ∉ cs := fun e => h (by simp [e])
    unfold Split
    simp [hc, ih hcs]

theorem Split_append_sep (a b : Str) (sep : Char) (h : sep ∉ a) :
    Split (a ++ sep :: b) sep = a :: Split b sep := by
  induction a with
  | nil => simp [Split]
  | cons c cs ih =>
    have hc : c ≠ sep := fun e => h (by simp [e])
    have hcs : sep ∉ cs := fun e => h (by simp [e])
    show Split (c :: (cs ++ sep :: b)) sep = _
    rw [Split]
    simp [hc, ih hcs]

theorem Split_joinSlash (ks : List Str) (hne : ks ≠ []) (h : ∀ s ∈ ks, '/' ∉ s) :
    Split (joinSlash ks) '/' = ks := by
  induction ks with
  | nil => exact absurd rfl hne
  | cons k rest ih =>
    cases rest with
    | nil => simpa [joinSlash] using Split_no_sep k '/' (h k (by simp))
    | cons t rest' =>
      have := ih (by simp) (fun s hs => h s (by simp [hs]))
      simp only [joinSlash]
      rw [Split_append_sep _ _ _ (h k (by simp)), this]

theorem sliceFrom_append (a b : Str) : sliceFrom (a ++ b) (a.length : Int) = some b := by
  simp [sliceFrom]

theorem sliceFrom_append_succ (a : Str) (c : Char) (b : Str) :
    sliceFrom (a ++ c :: b) ((a.length : Int) + 1) = some b := by
  have h : ((a.length : Int) + 1).toNat = a.length + 1 := by omega
  simp only [sliceFrom, h]
  have : (0:Int) ≤ (a.length : Int) + 1 ∧ (a.length : Int) + 1 ≤ ((a ++ c :: b).length : Int) := by
    simp; omega
  rw [if_pos this]
  simp [List.drop_append_eq_append_drop]

theorem matchSeq_lits_none (lits : Str) (tail : List Rx) (b : Bool) (s : Str)
    (h : ¬ lits <+: s) : matchSeq (lits.map Rx.lit ++ tail) b s = none := by
  induction lits generalizing b s with
  | nil => exact absurd (List.nil_prefix) h
  | cons c cs ih =>
    cases s with
    | nil => simp [matchSeq]
    | cons d s' =>
      show matchSeq (Rx.lit c :: (cs.map Rx.lit ++ tail)) b (d :: s') = none
      rw [matchSeq]
      by_cases hd : d = c
      · subst hd
        have : ¬ cs <+: s' := fun hp => h (by simpa using hp)
        simp [ih false s' this]
      · simp [hd]

theorem matchSeq_lits (lits : Str) (tail : List Rx) (b : Bool) (s : Str) :
    matchSeq (lits.map Rx.lit ++ tail) b (lits ++ s) =
      (matchSeq tail (b && lits.isEmpty) s).map (fun r => (lits ++ r.1, r.2)) := by
  induction lits generalizing b with
  | nil => simp
  | cons c cs ih =>
    show matchSeq (Rx.lit c :: (cs.map Rx.lit ++ tail)) b (c :: (cs ++ s)) = _
    rw [matchSeq]
    simp only [if_true, ih false, Bool.false_and, List.isEmpty_cons, Bool.and_false, Option.map_map]
    rfl

theorem findFrom_bot_false (rs : List Rx) (s : Str) : findFrom (Rx.bot :: rs) false s = none := by
  induction s with
  | nil => simp [findFrom, matchSeq]
  | cons c t ih => simp [findFrom, matchSeq, ih]

theorem starGreedy_eot_clean (s : Str) (b : Bool) (h : '\n' ∉ s) :
    starGreedy (matchPlain [Rx.eot]) b s = some (s, s) := by
  induction s generalizing b with
  | nil => simp [starGreedy, matchPlain]
  | cons c cs ih =>
    have hc : c ≠ '\n' := fun e => h (by simp [e])
    have hcs : '\n' ∉ cs := fun e => h (by simp [e])
    rw [starGreedy, if_pos hc, ih false hcs]

theorem starGreedy_eot_newline (s : Str) (b : Bool) (h : '\n' ∈ s) :
    starGreedy (matchPlain [Rx.eot]) b s = none := by
  induction s generalizing b with
  | nil => simp at h
  | cons c cs ih =>
    by_cases hc : c = '\n'
    · rw [starGreedy, if_neg (by simpa using hc)]
      simp [matchPlain]
    · have hcs : '\n' ∈ cs := by
        rcases List.mem_cons.1 h with e | e
        · exact absurd e.symm hc
        · exact e
      rw [starGreedy, if_pos hc, ih false hcs]
      simp [matchPlain]

/-- What `designDocumentName` computes on an identifier that carries the marker. -/
theorem designDocumentName_marker (rest : Str) :
    designDocumentName ("_design/".toList ++ rest) =
      if '\n' ∈ rest then ("_design/".toList ++ rest, none) else (rest, none) := by
  have hm := matchSeq_lits "_design/".toList [Rx.capAnyStar, Rx.eot] false rest
  have key : findFrom (Rx.bot :: ("_design/".toList.map Rx.lit ++ [Rx.capAnyStar, Rx.eot])) true
      ("_design/".toList ++ rest) =
      if '\n' ∈ rest then none else some ("_design/".toList ++ rest, rest) := by
    show findFrom _ true ('_' :: ("design/".toList ++ rest)) = _
    rw [findFrom, findFrom_bot_false, matchSeq, if_pos rfl]
    have e : ('_' :: ("design/".toList ++ rest)) = "_design/".toList ++ rest := rfl
    rw [e, matchSeq_lits]
    by_cases hn : '\n' ∈ rest
    · simp [matchSeq, starGreedy_eot_newline rest false hn, hn]
    · simp [matchSeq, starGreedy_eot_clean rest false hn, hn]
  unfold designDocumentName compileDesignPattern FindStringSubmatch
  simp only [key]
  by_cases hn : '\n' ∈ rest <;> simp [hn]


/-! ## `removeBasePath` -/

theorem sliceFrom_length_sub_one (s : Str) (c : Char) :
    sliceFrom (s ++ [c]) (((s ++ [c]).length : Int) - 1) = some [c] := by
  have h : ((s ++ [c]).length : Int) - 1 = (s.length : Int) := by simp
  rw [h]
  exact sliceFrom_append s [c]

theorem removeBasePath_slash_base (b rel : Str) (c : Char) :
    removeBasePath (b ++ ['/']) (b ++ ['/'] ++ c :: rel) = some (c :: rel) := by
  unfold removeBasePath
  rw [sliceFrom_length_sub_one, sliceFrom_append, sliceFrom_append_succ]
  rfl

theorem removeBasePath_plain_base (base rel : Str) (hne : base ≠ [])
    (hlast : base.getLast? ≠ some '/') :
    removeBasePath base (base ++ '/' :: rel) = some rel := by
  obtain ⟨b, c, rfl⟩ : ∃ b c, base = b ++ [c] := by
    rcases List.eq_nil_or_concat base with h | ⟨b, c, h⟩
    · exact absurd h hne
    · exact ⟨b, c, by simpa using h⟩
  have hc : c ≠ '/' := by
    intro e
    apply hlast
    simp [e]
  unfold removeBasePath
  rw [sliceFrom_length_sub_one, sliceFrom_append, sliceFrom_append_succ]
  have : ([c] : Str) ≠ "/".toList := by
    intro e
    apply hc
    simpa using e
  simp only [Option.bind_eq_bind, Option.some_bind, if_neg this]

theorem sliceTo_append (a b : Str) (n : Int) (h : n = (b.length : Int)) :
    sliceTo (a ++ b) (((a ++ b).length : Int) - n) = some a := by
  subst h
  have h1 : ((a ++ b).length : Int) - (b.length : Int) = (a.length : Int) := by simp
  rw [h1]
  simp [sliceTo]

theorem foldl_childPath (path : Str) (ks : List Str) :
    ks.foldl childPath path = joinSlash (path :: ks) := by
  induction ks generalizing path with
  | nil => rfl
  | cons k rest ih =>
    rw [List.foldl_cons, ih]
    cases rest with
    | nil => simp [joinSlash, childPath]
    | cons t rest' => simp [joinSlash, childPath]

theorem joinSlash_cons (s : Str) (ks : List Str) (h : ks ≠ []) :
    joinSlash (s :: ks) = s ++ '/' :: joinSlash ks := by
  cases ks with
  | nil => exact absurd rfl h
  | cons t rest => rfl

theorem joinSlash_concat (ks : List Str) (k : Str) (h : ks ≠ []) :
    joinSlash (ks ++ [k]) = joinSlash ks ++ '/' :: k := by
  induction ks with
  | nil => exact absurd rfl h
  | cons s rest ih =>
    cases rest with
    | nil => simp [joinSlash]
    | cons t rest' =>
      have := ih (by simp)
      show s ++ '/' :: joinSlash ((t :: rest') ++ [k]) = (s ++ '/' :: joinSlash (t :: rest')) ++ '/' :: k
      rw [this]
      simp

/-! ## Claims on the path utilities -/

/-- C2 (failing input): on the identifier `"_design/a\nb"` the function
`designDocumentName` returns the whole identifier, marker included, and not
the text `"a\nb"` after the marker: the `.` of its pattern matches no newline
and its `$` only the end of the text. -/
theorem designDocumentName_newline_keeps_marker :
    designDocumentName ("_design/".toList ++ "a\nb".toList) = ("_design/a\nb".toList, none) ∧
    designDocumentName ("_design/".toList ++ "a\nb".toList) ≠ ("a\nb".toList, none) := by
  constructor <;> decide

/-- C3: an identifier that does not begin with `"_design/"` is returned
unchanged, with a nil error. -/
theorem designDocumentName_no_marker (id : Str) (h : ¬ "_design/".toList <+: id) :
    designDocumentName id = (id, none) := by
  have key : findFrom (Rx.bot :: ("_design/".toList.map Rx.lit ++ [Rx.capAnyStar, Rx.eot])) true id
      = none := by
    have hm : matchSeq (Rx.bot :: ("_design/".toList.map Rx.lit ++ [Rx.capAnyStar, Rx.eot])) true id
        = none := by
      rw [matchSeq, if_pos rfl]
      exact matchSeq_lits_none _ _ _ _ h
    cases id with
    | nil => rw [findFrom, hm]
    | cons c t => rw [findFrom, hm, findFrom_bot_false]
  unfold designDocumentName compileDesignPattern FindStringSubmatch
  simp only [key]
  simp

/-- C3 at the identifier of the repository's test, `"design/v1"`. -/
theorem designDocumentName_no_marker_witness :
    ¬ "_design/".toList <+: "design/v1".toList ∧
    designDocumentName "design/v1".toList = ("design/v1".toList, none) :=
  ⟨by decide, designDocumentName_no_marker "design/v1".toList (by decide)⟩

/-- C9 (failing input): with a base that ends in the separator and an empty
relative part, `removeBasePath("a/", "a/" + "")` panics: the debug line 219
slices `path[len(basePath)+1:]` one past the end of `path` before the branch
is taken. -/
theorem removeBasePath_panics_on_empty_rel :
    removeBasePath "a/".toList ("a/".toList ++ "".toList) = none := by
  decide

/-! ## `put` -/

theorem mapGet_mapSet_same {α : Type} (m : List (Str × α)) (k : Str) (v : α) : mapGet (mapSet m k v) k = some v := by
  induction m with
  | nil => simp [mapSet, mapGet]
  | cons e rest ih =>
    obtain ⟨k', v'⟩ := e
    by_cases h : k' = k
    · simp [mapSet, mapGet, h]
    · simp [mapSet, mapGet, h, ih]

theorem mapGet_mapSet_ne {α : Type} (m : List (Str × α)) (k k0 : Str) (v : α) (h : k0 ≠ k) :
    mapGet (mapSet m k v) k0 = mapGet m k0 := by
  induction m with
  | nil => simp [mapSet, mapGet, Ne.symm h]
  | cons e rest ih =>
    obtain ⟨k', v'⟩ := e
    by_cases h' : k' = k
    · subst h'
      simp [mapSet, mapGet, Ne.symm h]
    · by_cases h0 : k' = k0
      · subst h0
        simp [mapSet, mapGet, h']
      · simp [mapSet, mapGet, h', h0, ih]

theorem dropLast_append_getLastD (l : List Str) (d : Str) (h : l ≠ []) :
    l.dropLast ++ [l.getLastD d] = l := by
  induction l with
  | nil => exact absurd rfl h
  | cons a t ih =>
    cases t with
    | nil => simp
    | cons b t' =>
      have := ih (by simp)
      simp only [List.dropLast_cons₂, List.cons_append, List.getLastD_cons] at this ⊢
      rw [this]

theorem getPath_cons_obj (k : Str) (ks : List Str) (m : Doc) :
    getPath (k :: ks) (.obj m) = (mapGet m k).bind (getPath ks) := by
  rw [getPath]
  cases mapGet m k <;> rfl

theorem putLoop_eq_none_iff (ks : List Str) (last : Str) (v : Value) (dic : Doc) :
    putLoop ks last v dic = none ↔
      ∃ p, p <+: ks ∧ p ≠ [] ∧ isObject (getPath p (.obj dic)) = false := by
  induction ks generalizing dic with
  | nil =>
    simp only [putLoop, List.prefix_nil]
    constructor
    · intro h
      cases h
    · rintro ⟨p, hp, hne, -⟩
      exact absurd hp hne
  | cons k ks ih =>
    rw [putLoop]
    cases hk : mapGet dic k with
    | none =>
      simp only [true_iff]
      exact ⟨[k], by simp, by simp, by simp [getPath_cons_obj, hk, isObject]⟩
    | some val =>
      cases val with
      | str s =>
        simp only [true_iff]
        exact ⟨[k], by simp, by simp, by simp [getPath_cons_obj, hk, isObject, getPath]⟩
      | other kd =>
        simp only [true_iff]
        exact ⟨[k], by simp, by simp, by simp [getPath_cons_obj, hk, isObject, getPath]⟩
      | obj d =>
        simp only [Option.map_eq_none']
        rw [ih d]
        constructor
        · rintro ⟨p, hp, hne, hobj⟩
          refine ⟨k :: p, by simpa using hp, by simp, ?_⟩
          rw [getPath_cons_obj, hk]
          exact hobj
        · rintro ⟨p, hp, hne, hobj⟩
          cases p with
          | nil => exact absurd rfl hne
          | cons k0 p' =>
            have hk0 : k0 = k ∧ p' <+: ks := by simpa using hp
            obtain ⟨rfl, hp'⟩ := hk0
            rw [getPath_cons_obj, hk] at hobj
            refine ⟨p', hp', ?_, hobj⟩
            rintro rfl
            simp [getPath, isObject] at hobj

theorem putLoop_stores (ks : List Str) (last : Str) (v : Value) (dic dic' : Doc)
    (h : putLoop ks last v dic = some dic') :
    getPath (ks ++ [last]) (.obj dic') = some v := by
  induction ks generalizing dic dic' with
  | nil =>
    simp only [putLoop, Option.some.injEq] at h
    subst h
    simp [getPath_cons_obj, mapGet_mapSet_same, getPath]
  | cons k ks ih =>
    rw [putLoop] at h
    cases hk : mapGet dic k with
    | none => simp [hk] at h
    | some val =>
      cases val with
      | str s => simp [hk] at h
      | other kd => simp [hk] at h
      | obj d =>
        simp only [hk, Option.map_eq_some'] at h
        obtain ⟨d', hd', rfl⟩ := h
        show getPath (k :: (ks ++ [last])) _ = _
        rw [getPath_cons_obj, mapGet_mapSet_same]
        exact ih d d' hd'

theorem putLoop_frame (ks : List Str) (last : Str) (v : Value) (dic dic' : Doc)
    (h : putLoop ks last v dic = some dic') (q : List Str)
    (h1 : ¬ (ks ++ [last]) <+: q) (h2 : ¬ q <+: (ks ++ [last])) :
    getPath q (.obj dic') = getPath q (.obj dic) := by
  induction ks generalizing dic dic' q with
  | nil =>
    simp only [putLoop, Option.some.injEq] at h
    subst h
    cases q with
    | nil => exact absurd List.nil_prefix h2
    | cons k0 q' =>
      have hne : k0 ≠ last := by
        rintro rfl
        apply h1
        simp
      rw [getPath_cons_obj, getPath_cons_obj, mapGet_mapSet_ne _ _ _ _ hne]
  | cons k ks ih =>
    rw [putLoop] at h
    cases hk : mapGet dic k with
    | none => simp [hk] at h
    | some val =>
      cases val with
      | str s => simp [hk] at h
      | other kd => simp [hk] at h
      | obj d =>
        simp only [hk, Option.map_eq_some'] at h
        obtain ⟨d', hd', rfl⟩ := h
        cases q with
        | nil => exact absurd List.nil_prefix h2
        | cons k0 q' =>
          by_cases hne : k0 = k
          · subst hne
            rw [getPath_cons_obj, getPath_cons_obj, mapGet_mapSet_same, hk]
            refine ih d d' hd' q' ?_ ?_
            · intro hp
              apply h1
              simpa using hp
            · intro hp
              apply h2
              simpa using hp
          · rw [getPath_cons_obj, getPath_cons_obj, mapGet_mapSet_ne _ _ _ _ hne]

theorem put_eq_putLoop (key : Str) (value : Value) (dic : Doc) :
    put key value dic
      = putLoop (Split key '/').dropLast ((Split key '/').getLastD []) value dic := rfl

theorem Split_dropLast_append (key : Str) :
    (Split key '/').dropLast ++ [(Split key '/').getLastD []] = Split key '/' :=
  dropLast_append_getLastD _ _ (Split_ne_nil key '/')

/-- C4 (as stated, refuted): with `root = {a: {b: "old"}}`, the key-path `a/b`
has its only intermediate segment `a` holding an Object; `put("a/b", "new",
root)` completes, and the value at the other key-path `a`, which does not
pass through `a/b`, is no longer the value it was. -/
theorem put_changes_enclosing_object :
    isObject (getPath ["a".toList]
        (.obj [("a".toList, .obj [("b".toList, .str "old".toList)])])) = true ∧
    put "a/b".toList (.str "new".toList) [("a".toList, .obj [("b".toList, .str "old".toList)])]
      = some [("a".toList, .obj [("b".toList, .str "new".toList)])] ∧
    ["a".toList] ≠ Split "a/b".toList '/' ∧
    ¬ Split "a/b".toList '/' <+: ["a".toList] ∧
    getPath ["a".toList] (.obj [("a".toList, .obj [("b".toList, .str "new".toList)])])
      ≠ getPath ["a".toList] (.obj [("a".toList, .obj [("b".toList, .str "old".toList)])]) := by
  refine ⟨by decide, by decide, by decide, by decide, by decide⟩

/-- C4 (amended): when every intermediate segment of the key-path holds an
Object in `root`, `put(keyPath, value, root)` completes, leaves `value` stored
at exactly that key-path, whatever was stored there before, and leaves
unchanged the value at every key-path that neither passes through it nor is
one of its proper beginnings. -/
theorem put_stores_and_frames (root : Doc) (value : Value) (keyPath : Str)
    (h : ∀ p, p <+: (Split keyPath '/').dropLast → p ≠ [] →
      isObject (getPath p (.obj root)) = true) :
    ∃ root', put keyPath value root = some root' ∧
      getPath (Split keyPath '/') (.obj root') = some value ∧
      ∀ q, ¬ Split keyPath '/' <+: q → ¬ q <+: Split keyPath '/' →
        getPath q (.obj root') = getPath q (.obj root) := by
  cases hput : put keyPath value root with
  | none =>
    rw [put_eq_putLoop, putLoop_eq_none_iff] at hput
    obtain ⟨p, hp, hne, hobj⟩ := hput
    rw [h p hp hne] at hobj
    cases hobj
  | some root' =>
    rw [put_eq_putLoop] at hput
    refine ⟨root', rfl, ?_, ?_⟩
    · have := putLoop_stores _ _ _ _ _ hput
      rwa [Split_dropLast_append] at this
    · intro q h1 h2
      refine putLoop_frame _ _ _ _ _ hput q ?_ ?_
      · rwa [Split_dropLast_append]
      · rwa [Split_dropLast_append]

/-- C4 (amended) at `root = {a: {b: "old"}, c: "keep"}`, key-path `a/b`. -/
theorem put_stores_and_frames_witness :
    ∃ root', put "a/b".toList (.str "new".toList)
        [("a".toList, .obj [("b".toList, .str "old".toList)]), ("c".toList, .str "keep".toList)]
        = some root' ∧
      getPath (Split "a/b".toList '/') (.obj root') = some (.str "new".toList) ∧
      ∀ q, ¬ Split "a/b".toList '/' <+: q → ¬ q <+: Split "a/b".toList '/' →
        getPath q (.obj root') = getPath q
          (.obj [("a".toList, .obj [("b".toList, .str "old".toList)]),
            ("c".toList, .str "keep".toList)]) :=
  put_stores_and_frames _ _ _ (by
    intro p hp hne
    have hp' : p <+: ["a".toList] := hp
    rcases List.prefix_cons_iff.1 hp' with rfl | ⟨t, rfl, ht⟩
    · exact absurd rfl hne
    · have : t = [] := List.prefix_nil.1 ht
      subst this
      decide)

/-- C5 (as stated, refuted): in the empty root the intermediate segment `a` of
`a/b` holds no value at all, and `put("a/b", v, {})` panics: no Object is
created for the absent segment. -/
theorem put_panics_on_absent_segment :
    getPath ["a".toList] (.obj []) = none ∧
    put "a/b".toList (.str "v".toList) [] = none := by
  refine ⟨by decide, by decide⟩

/-- C5 (amended): `put(keyPath, value, root)` aborts if and only if some
intermediate (non-final) segment of the key-path is absent from `root` or holds
a non-Object value there; when it does not abort, `value` is stored at the
key-path. -/
theorem put_aborts_iff (root : Doc) (value : Value) (keyPath : Str) :
    (put keyPath value root = none ↔
      ∃ p, p <+: (Split keyPath '/').dropLast ∧ p ≠ [] ∧
        isObject (getPath p (.obj root)) = false) ∧
    (∀ root', put keyPath value root = some root' →
      getPath (Split keyPath '/') (.obj root') = some value) := by
  refine ⟨by rw [put_eq_putLoop, putLoop_eq_none_iff], ?_⟩
  intro root' hput
  rw [put_eq_putLoop] at hput
  have := putLoop_stores _ _ _ _ _ hput
  rwa [Split_dropLast_append] at this

/-! ## Runs of the serializer, of the walk and of `upload` on concrete trees -/

/-- C7 (failing input): a value that is neither a string nor a map never ends
the loop: `recurseDocument` logs `[ERROR] ... is trouble!` for its key and goes
on with the remaining keys.  The document `{a: 1, b: "x"}` holds a number; in
either order of its keys `recurseDocument` logs `[ERROR] r/v1/a is trouble!`,
writes `b.js` and returns as a success: no exit, no abort. -/
theorem recurseDocument_continues_after_trouble :
    (∀ (kind : Kind) (key : Str) (rest : Doc) (base path : Str) (w : World),
      recurseDocument ((key, .other kind) :: rest) base path w
        = recurseDocument rest base path
            (w.printf "[ERROR] %s is trouble!".toList [.s (objectDirname base path key)])) ∧
    recurseDocument [("a".toList, .other .number), ("b".toList, .str "x".toList)]
        "r".toList "v1".toList ⟨.dir [("r".toList, .dir [("v1".toList, .dir [])])], []⟩
      = .done ⟨.dir [("r".toList, .dir [("v1".toList,
                  .dir [("b.js".toList, .file "x".toList true)])])],
          [⟨"[ERROR] %s is trouble!".toList, [.s "r/v1/a".toList]⟩,
           ⟨"[INFO] %5d bytes <- %s".toList, [.n 1, .s "v1/b.js".toList]⟩]⟩ ∧
    recurseDocument [("b".toList, .str "x".toList), ("a".toList, .other .number)]
        "r".toList "v1".toList ⟨.dir [("r".toList, .dir [("v1".toList, .dir [])])], []⟩
      = .done ⟨.dir [("r".toList, .dir [("v1".toList,
                  .dir [("b.js".toList, .file "x".toList true)])])],
          [⟨"[INFO] %5d bytes <- %s".toList, [.n 1, .s "v1/b.js".toList]⟩,
           ⟨"[ERROR] %s is trouble!".toList, [.s "r/v1/a".toList]⟩]⟩ := by
  refine ⟨?_, by decide, by decide⟩
  intro kind key rest base path w
  rw [recurseDocument, recurseEntry]

theorem designDocumentName_nil_error (id : Str) : (designDocumentName id).2 = none := by
  unfold designDocumentName compileDesignPattern
  simp only
  split_ifs <;> rfl

/-- C10 (failing input): whatever error the walk returns, `upload` sends the
map the walk has filled so far to the sink.  In `p/db/v1` the file `b.js`
cannot be read: the walk stops there with the read error, after `a.js` and
before `c.js`; `upload` drops that error, sends the partly built document
`{a: "A"}`, writes `_rev.js` and ends as a success. -/
theorem upload_sends_partial_document :
    (∀ (clientPut : SinkPut) (database path documentId : Str) (ignoreRev : Bool) (fs : Node)
      (err : Option GoError) (walked : Doc),
      Walk fs (path ++ "/".toList ++ database ++ "/".toList ++ (designDocumentName documentId).1)
          (RecursePath fs
            (path ++ "/".toList ++ database ++ "/".toList ++ (designDocumentName documentId).1)
            "*.js".toList) [] = .ret err walked →
      (upload clientPut database path documentId ignoreRev fs).sent
        = [("/".toList ++ database ++ "/".toList ++ documentId,
            if ignoreRev = true then mapDelete walked "_rev".toList else walked)]) ∧
    deserialize
        (.dir [("p".toList, .dir [("db".toList, .dir [("v1".toList,
          .dir [("a.js".toList, .file "A".toList true), ("b.js".toList, .file "B".toList false),
                ("c.js".toList, .file "C".toList true)])])])])
        "p/db/v1".toList
      = .ret (some (.readFile "p/db/v1/b.js".toList)) [("a".toList, .str "A".toList)] ∧
    upload (fun _ _ => .ok ⟨true, "_design/v1".toList, "2-abc".toList⟩)
        "db".toList "p".toList "_design/v1".toList false
        (.dir [("p".toList, .dir [("db".toList, .dir [("v1".toList,
          .dir [("a.js".toList, .file "A".toList true), ("b.js".toList, .file "B".toList false),
                ("c.js".toList, .file "C".toList true)])])])])
      = ⟨[("/db/_design/v1".toList, [("a".toList, .str "A".toList)])],
         .dir [("p".toList, .dir [("db".toList, .dir [("v1".toList,
          .dir [("a.js".toList, .file "A".toList true), ("b.js".toList, .file "B".toList false),
                ("c.js".toList, .file "C".toList true),
                ("_rev.js".toList, .file "2-abc".toList true)])])])],
         .done⟩ := by
  refine ⟨?_, by decide, by decide⟩
  intro clientPut database path documentId ignoreRev fs err walked hwalk
  have hnil := designDocumentName_nil_error documentId
  unfold upload
  cases hd : designDocumentName documentId with
  | mk name e =>
    rw [hd] at hnil hwalk
    simp only at hnil hwalk
    subst hnil
    simp only [hwalk]
    cases clientPut ("/".toList ++ database ++ "/".toList ++ documentId)
        (if ignoreRev = true then mapDelete walked "_rev".toList else walked) with
    | error e => rfl
    | ok response =>
      simp only
      cases WriteFile fs (path ++ "/".toList ++ database ++ "/".toList ++ name ++ "/_rev.js".toList)
        response.rev <;> rfl

/-- C6 (failing input): the tree `r` holds the file `x.js` and the directory
`x` with the file `x/y.js`.  The walk ends without any error, and the document
it leaves has the content of `x.js` at key `x`: the Object built from the
directory, with its entry `y`, has been overwritten, where the claim asks for
a conflict error.  The same pair one level down, in `r/a`, ends the same way.
`filepath.Walk` visits the directory `x` and all it holds before the file
`x.js`, and `put` assigns the final segment without a look at what it
replaces; the one check `put` has, the panic on a Leaf met at an intermediate
segment (as in `put("x/y", "inner", {x: "content"})`), is never reached by
this pair. -/
theorem deserialize_overwrites_directory_object :
    deserialize
        (.dir [("r".toList, .dir [("x".toList, .dir [("y.js".toList, .file "inner".toList true)]),
                                  ("x.js".toList, .file "content".toList true)])])
        "r".toList
      = .ret none [("x".toList, .str "content".toList)] ∧
    deserialize
        (.dir [("r".toList, .dir [("a".toList,
          .dir [("x.js".toList, .file "content".toList true),
                ("x".toList, .dir [("y.js".toList, .file "inner".toList true)])])])])
        "r".toList
      = .ret none [("a".toList, .obj [("x".toList, .str "content".toList)])] ∧
    put "x/y".toList (.str "inner".toList) [("x".toList, .str "content".toList)] = none := by
  refine ⟨by decide, by decide, by decide⟩

set_option maxRecDepth 1000000 in
/-- C1 (as stated, refuted), documents with non-empty keys and only Leaf
strings and Objects, each serialized into the empty directory `r/v1` (the
last one into `./v1`): `{"a/b": {}}` comes back as `{a: {b: {}}}`;
`{".": {a: "x"}}` comes back as `{a: "x"}` and `{"..": {a: "x"}}` as `{}`;
`{x: "c", "x.js": {}}` makes the serializer exit with `-1`, in either order of
its keys, as the file `x.js` and the directory `x.js` collide; so do a key
with a NUL byte, a Leaf key of 253 bytes (its file name has 256) and sixteen
nested Objects under keys of 255 bytes (the path of the last one has over
4095 bytes), which the file system refuses; and with the base `.` the walk of
`./v1` panics on the first file, as `filepath.Walk` hands out cleaned paths
that do not begin with `./v1`. -/
theorem deserialize_of_serialize_differs :
    (recurseDocument [("a/b".toList, .obj [])] "r".toList "v1".toList
        ⟨.dir [("r".toList, .dir [("v1".toList, .dir [])])], []⟩
      = .done ⟨.dir [("r".toList, .dir [("v1".toList,
                  .dir [("a".toList, .dir [("b".toList, .dir [])])])])],
          [⟨"[DEBUG] mkdir %s".toList, [.s "r/v1/a/b".toList]⟩]⟩ ∧
     deserialize (.dir [("r".toList, .dir [("v1".toList,
          .dir [("a".toList, .dir [("b".toList, .dir [])])])])]) "r/v1".toList
      = .ret none [("a".toList, .obj [("b".toList, .obj [])])] ∧
     deepEqual (.obj [("a/b".toList, .obj [])])
        (.obj [("a".toList, .obj [("b".toList, .obj [])])]) = false) ∧
    (recurseDocument [(".".toList, .obj [("a".toList, .str "x".toList)])] "r".toList "v1".toList
        ⟨.dir [("r".toList, .dir [("v1".toList, .dir [])])], []⟩
      = .done ⟨.dir [("r".toList, .dir [("v1".toList,
                  .dir [("a.js".toList, .file "x".toList true)])])],
          [⟨"[DEBUG] mkdir %s".toList, [.s "r/v1/.".toList]⟩,
           ⟨"[INFO] %5d bytes <- %s".toList, [.n 1, .s "v1/./a.js".toList]⟩]⟩ ∧
     deserialize (.dir [("r".toList, .dir [("v1".toList,
          .dir [("a.js".toList, .file "x".toList true)])])]) "r/v1".toList
      = .ret none [("a".toList, .str "x".toList)] ∧
     deepEqual (.obj [(".".toList, .obj [("a".toList, .str "x".toList)])])
        (.obj [("a".toList, .str "x".toList)]) = false) ∧
    (recurseDocument [("..".toList, .obj [("a".toList, .str "x".toList)])] "r".toList "v1".toList
        ⟨.dir [("r".toList, .dir [("v1".toList, .dir [])])], []⟩
      = .done ⟨.dir [("r".toList, .dir [("v1".toList, .dir []),
                  ("a.js".toList, .file "x".toList true)])],
          [⟨"[DEBUG] mkdir %s".toList, [.s "r/v1/..".toList]⟩,
           ⟨"[INFO] %5d bytes <- %s".toList, [.n 1, .s "v1/../a.js".toList]⟩]⟩ ∧
     deserialize (.dir [("r".toList, .dir [("v1".toList, .dir []),
          ("a.js".toList, .file "x".toList true)])]) "r/v1".toList
      = .ret none [] ∧
     deepEqual (.obj [("..".toList, .obj [("a".toList, .str "x".toList)])]) (.obj []) = false) ∧
    ((∃ w, recurseDocument [("x".toList, .str "c".toList), ("x.js".toList, .obj [])]
        "r".toList "v1".toList ⟨.dir [("r".toList, .dir [("v1".toList, .dir [])])], []⟩
        = .exit (-1) w) ∧
     (∃ w, recurseDocument [("x.js".toList, .obj []), ("x".toList, .str "c".toList)]
        "r".toList "v1".toList ⟨.dir [("r".toList, .dir [("v1".toList, .dir [])])], []⟩
        = .exit (-1) w)) ∧
    ((recurseDocument [("a\x00b".toList, .str "x".toList)] "r".toList "v1".toList
        ⟨.dir [("r".toList, .dir [("v1".toList, .dir [])])], []⟩).exitCode = some (-1) ∧
     (recurseDocument [(List.replicate 253 'a', .str "x".toList)] "r".toList "v1".toList
        ⟨.dir [("r".toList, .dir [("v1".toList, .dir [])])], []⟩).exitCode = some (-1) ∧
     (recurseDocument (nestedDoc (List.replicate 255 'a') [("x".toList, .str "c".toList)] 16)
        "r".toList "v1".toList
        ⟨.dir [("r".toList, .dir [("v1".toList, .dir [])])], []⟩).exitCode = some (-1)) ∧
    (recurseDocument [("a".toList, .str "x".toList)] ".".toList "v1".toList
        ⟨.dir [("v1".toList, .dir [])], []⟩
      = .done ⟨.dir [("v1".toList, .dir [("a.js".toList, .file "x".toList true)])],
          [⟨"[INFO] %5d bytes <- %s".toList, [.n 1, .s "v1/a.js".toList]⟩]⟩ ∧
     deserialize (.dir [("v1".toList, .dir [("a.js".toList, .file "x".toList true)])])
        "./v1".toList = .panic) := by
  refine ⟨⟨by decide, by decide, by decide⟩, ⟨by decide, by decide, by decide⟩,
    ⟨by decide, by decide, by decide⟩,
    ⟨⟨_, rfl⟩, ⟨_, rfl⟩⟩, ⟨by decide!, by decide!, by decide!⟩, ⟨by decide, by decide⟩⟩

set_option maxRecDepth 1000000 in
/-- C8 (as stated, refuted), roots that do not end in `/` and key-paths of
non-empty segments without `/`.  Under the root `./v1` (the base `.`), for the
key-path `abc`: the serializer names and writes `./v1/abc.js`, the walk hands
the file out as `v1/abc.js` (`filepath.Join` cleans the path), the key derived
from it is `c`, and the document read back holds the Leaf at `c`, not at
`abc`.  Under the root `r/v1`, for the key-path `./a`: the serializer names
`r/v1/./a.js`, which is the file `r/v1/a.js`; the walk hands it out under that
name, the key derived from it splits into `[a]`, and the document read back
holds the Leaf at `a` and nothing at `./a`.  For the key-path `../a` the file
named is `r/a.js`, outside the root: the walk does not meet it and the
document read back is empty.  For a key with a NUL byte and for a key of 253
bytes (a file name of 256) the file system refuses the file the serializer
names, and the serializer exits with `-1`. -/
theorem walk_derives_other_key :
    (leafFilename ".".toList ([].foldl childPath "v1".toList) "abc".toList = "./v1/abc.js".toList ∧
     recurseDocument [("abc".toList, .str "x".toList)] ".".toList "v1".toList
        ⟨.dir [("v1".toList, .dir [])], []⟩
      = .done ⟨.dir [("v1".toList, .dir [("abc.js".toList, .file "x".toList true)])],
          [⟨"[INFO] %5d bytes <- %s".toList, [.n 1, .s "v1/abc.js".toList]⟩]⟩ ∧
     Join "./v1".toList "abc.js".toList = "v1/abc.js".toList ∧
     fileKey "./v1".toList "v1/abc.js".toList = some "c".toList ∧
     deserialize (.dir [("v1".toList, .dir [("abc.js".toList, .file "x".toList true)])])
        "./v1".toList = .ret none [("c".toList, .str "x".toList)]) ∧
    (leafFilename "r".toList ([".".toList].foldl childPath "v1".toList) "a".toList
        = "r/v1/./a.js".toList ∧
     recurseDocument [(".".toList, .obj [("a".toList, .str "x".toList)])] "r".toList "v1".toList
        ⟨.dir [("r".toList, .dir [("v1".toList, .dir [])])], []⟩
      = .done ⟨.dir [("r".toList, .dir [("v1".toList,
                  .dir [("a.js".toList, .file "x".toList true)])])],
          [⟨"[DEBUG] mkdir %s".toList, [.s "r/v1/.".toList]⟩,
           ⟨"[INFO] %5d bytes <- %s".toList, [.n 1, .s "v1/./a.js".toList]⟩]⟩ ∧
     Join "r/v1".toList "a.js".toList = "r/v1/a.js".toList ∧
     (fileKey "r/v1".toList "r/v1/a.js".toList).map (fun key => Split key '/')
        = some ["a".toList] ∧
     deserialize (.dir [("r".toList, .dir [("v1".toList,
          .dir [("a.js".toList, .file "x".toList true)])])]) "r/v1".toList
      = .ret none [("a".toList, .str "x".toList)] ∧
     getPath [".".toList, "a".toList] (.obj [("a".toList, .str "x".toList)]) = none) ∧
    (leafFilename "r".toList (["..".toList].foldl childPath "v1".toList) "a".toList
        = "r/v1/../a.js".toList ∧
     recurseDocument [("..".toList, .obj [("a".toList, .str "x".toList)])] "r".toList "v1".toList
        ⟨.dir [("r".toList, .dir [("v1".toList, .dir [])])], []⟩
      = .done ⟨.dir [("r".toList, .dir [("v1".toList, .dir []),
                  ("a.js".toList, .file "x".toList true)])],
          [⟨"[DEBUG] mkdir %s".toList, [.s "r/v1/..".toList]⟩,
           ⟨"[INFO] %5d bytes <- %s".toList, [.n 1, .s "v1/../a.js".toList]⟩]⟩ ∧
     deserialize (.dir [("r".toList, .dir [("v1".toList, .dir []),
          ("a.js".toList, .file "x".toList true)])]) "r/v1".toList
      = .ret none []) ∧
    ((recurseDocument [("a\x00b".toList, .str "x".toList)] "r".toList "v1".toList
        ⟨.dir [("r".toList, .dir [("v1".toList, .dir [])])], []⟩).exitCode = some (-1) ∧
     (recurseDocument [(List.replicate 253 'a', .str "x".toList)] "r".toList "v1".toList
        ⟨.dir [("r".toList, .dir [("v1".toList, .dir [])])], []⟩).exitCode = some (-1)) := by
  refine ⟨⟨by decide, by decide, by decide, by decide, by decide⟩,
    ⟨by decide, by decide, by decide, by decide, by decide, by decide⟩,
    ⟨by decide, by decide, by decide⟩, ⟨by decide!, by decide!⟩⟩

/-! ## Paths: resolution, `filepath.Clean`, limits -/

theorem Split_append_sep_all (a b : Str) (sep : Char) :
    Split (a ++ sep :: b) sep = Split a sep ++ Split b sep := by
  induction a with
  | nil => simp [Split]
  | cons c cs ih =>
    show Split (c :: (cs ++ sep :: b)) sep = Split (c :: cs) sep ++ _
    rw [Split, Split, ih]
    by_cases hc : c = sep
    · simp [hc]
    · simp only [hc, if_false]
      cases h : Split cs sep with
      | nil => exact absurd h (Split_ne_nil cs sep)
      | cons seg rest => simp

theorem joinSlash_Split (s : Str) : joinSlash (Split s '/') = s := by
  induction s with
  | nil => simp [Split, joinSlash]
  | cons c cs ih =>
    rw [Split]
    by_cases hc : c = '/'
    · simp only [hc, if_true]
      rw [joinSlash_cons _ _ (Split_ne_nil cs '/'), ih]
      rfl
    · simp only [hc, if_false]
      cases h : Split cs '/' with
      | nil => exact absurd h (Split_ne_nil cs '/')
      | cons seg rest =>
        rw [h] at ih
        cases rest with
        | nil =>
          simp only [joinSlash] at ih ⊢
          rw [ih]
        | cons t rest' =>
          simp only [joinSlash] at ih ⊢
          rw [← ih]
          rfl

theorem plainName_iff (n : Str) :
    plainName n = true ↔ n ≠ [] ∧ '/' ∉ n ∧ n ≠ ".".toList ∧ n ≠ "..".toList := by
  simp [plainName]

theorem plainName_nil : plainName [] = false := by decide

theorem cleanStep_plain (b : Bool) (stack : List Str) (c : Str) (h : plainName c = true) :
    cleanStep b stack c = stack ++ [c] := by
  obtain ⟨h1, -, h3, h4⟩ := (plainName_iff c).1 h
  have h3' : c ≠ ['.'] := h3
  have h4' : c ≠ ['.', '.'] := h4
  simp [cleanStep, h1, h3', h4']

theorem foldl_cleanStep_plain (b : Bool) (stack cs : List Str)
    (h : ∀ c ∈ cs, plainName c = true) :
    cs.foldl (cleanStep b) stack = stack ++ cs := by
  induction cs generalizing stack with
  | nil => simp
  | cons c rest ih =>
    rw [List.foldl_cons, cleanStep_plain b stack c (h c (by simp)),
      ih _ (fun x hx => h x (by simp [hx]))]
    simp

theorem cleanStep_nil (b : Bool) (stack : List Str) : cleanStep b stack [] = stack := by
  simp [cleanStep]

theorem Split_extend (p n : Str) (hn : plainName n = true) :
    Split (p ++ '/' :: n) '/' = Split p '/' ++ [n] := by
  rw [Split_append_sep_all, Split_no_sep n '/' ((plainName_iff n).1 hn).2.1]

theorem components_extend (p n : Str) (hn : plainName n = true) :
    components (p ++ '/' :: n) = components p ++ [n] := by
  unfold components
  rw [Split_extend p n hn, List.foldl_append, List.foldl_cons, List.foldl_nil,
    cleanStep_plain _ _ _ hn]

theorem components_slash (p : Str) : components (p ++ ['/']) = components p := by
  unfold components
  rw [Split_append_sep_all, List.foldl_append]
  simp [Split, cleanStep_nil]

theorem stem_cases (root : Str) :
    (stem root = root ∧ root.getLast? ≠ some '/') ∨ root = stem root ++ ['/'] := by
  unfold stem
  by_cases h : root.getLast? = some '/'
  · right
    rw [if_pos h]
    rcases List.eq_nil_or_concat root with e | ⟨q, c, e⟩
    · subst e
      simp at h
    · subst e
      simp at h
      simp [h]
  · left
    rw [if_neg h]
    exact ⟨rfl, h⟩

theorem components_stem (root : Str) : components (stem root) = components root := by
  rcases stem_cases root with ⟨h, -⟩ | h
  · rw [h]
  · conv_rhs => rw [h]
    rw [components_slash]

/-- A path that `filepath.Clean` leaves unchanged, other than `.` and `/`. -/
theorem Clean_stable_shape (p : Str) (hc : Clean p = p) (h1 : p ≠ ".".toList)
    (h2 : p ≠ "/".toList) :
    p ≠ [] ∧
    (Split p '/').foldl (cleanStep (decide (p.head? = some '/'))) [] ≠ [] ∧
    (if decide (p.head? = some '/') = true then "/".toList else [])
      ++ joinSlash ((Split p '/').foldl (cleanStep (decide (p.head? = some '/'))) []) = p := by
  have hne : p ≠ [] := by
    rintro rfl
    simp [Clean] at hc
  unfold Clean at hc
  rw [if_neg hne] at hc
  simp only at hc
  by_cases hs : (if decide (p.head? = some '/') = true then "/".toList else [])
      ++ joinSlash ((Split p '/').foldl (cleanStep (decide (p.head? = some '/'))) []) = []
  · rw [if_pos hs] at hc
    exact absurd hc.symm h1
  · rw [if_neg hs] at hc
    refine ⟨hne, ?_, hc⟩
    intro hout
    rw [hout] at hc
    by_cases hr : decide (p.head? = some '/') = true
    · rw [if_pos hr] at hc
      simp only [joinSlash, List.append_nil] at hc
      exact h2 hc.symm
    · rw [if_neg hr] at hc
      simp only [joinSlash, List.append_nil] at hc
      exact hne hc.symm

theorem Clean_append (p suffix n : Str) (hc : Clean p = p) (h1 : p ≠ ".".toList)
    (h2 : p ≠ "/".toList)
    (hs : ∀ b stack, (Split suffix '/').foldl (cleanStep b) stack = stack ++ [n]) :
    Clean (p ++ '/' :: suffix) = p ++ '/' :: n := by
  obtain ⟨hne, hout, hp⟩ := Clean_stable_shape p hc h1 h2
  have hhead : (p ++ '/' :: suffix).head? = p.head? := by
    cases p with
    | nil => exact absurd rfl hne
    | cons c t => rfl
  unfold Clean
  rw [if_neg (by simp)]
  simp only [hhead, Split_append_sep_all, List.foldl_append, hs,
    joinSlash_concat _ n hout]
  rw [← List.append_assoc, hp]
  simp

theorem Clean_extend (p n : Str) (hc : Clean p = p) (h1 : p ≠ ".".toList)
    (h2 : p ≠ "/".toList) (hn : plainName n = true) :
    Clean (p ++ '/' :: n) = p ++ '/' :: n := by
  apply Clean_append p n n hc h1 h2
  intro b stack
  rw [Split_no_sep n '/' ((plainName_iff n).1 hn).2.1, List.foldl_cons, List.foldl_nil,
    cleanStep_plain _ _ _ hn]

theorem Clean_extend_slash (p n : Str) (hc : Clean p = p) (h1 : p ≠ ".".toList)
    (h2 : p ≠ "/".toList) (hn : plainName n = true) :
    Clean (p ++ '/' :: '/' :: n) = p ++ '/' :: n := by
  apply Clean_append p ('/' :: n) n hc h1 h2
  intro b stack
  have : Split ('/' :: n) '/' = [[], n] := by
    rw [Split]
    simp [Split_no_sep n '/' ((plainName_iff n).1 hn).2.1]
  rw [this]
  simp [cleanStep_nil, cleanStep_plain _ _ _ hn]

theorem Stable_of_walkRoot (root : Str) (h : walkRoot root = true) :
    root = "/".toList ∨ Stable (stem root) := by
  simpa [walkRoot, Stable] using h

theorem Stable_ne_nil (p : Str) (h : Stable p) : p ≠ [] :=
  (Clean_stable_shape p h.1 h.2.1 h.2.2).1

theorem Stable_extend (p n : Str) (h : Stable p) (hn : plainName n = true) :
    Stable (p ++ '/' :: n) := by
  have hne := Stable_ne_nil p h
  refine ⟨Clean_extend p n h.1 h.2.1 h.2.2 hn, ?_, ?_⟩
  · intro e
    have := congrArg List.length e
    cases p with
    | nil => exact hne rfl
    | cons c t => simp at this
  · intro e
    have := congrArg List.length e
    cases p with
    | nil => exact hne rfl
    | cons c t => simp at this

theorem Join_stable (p n : Str) (h : Stable p) (hn : plainName n = true) :
    Join p n = p ++ '/' :: n := by
  have hnn : n ≠ [] := ((plainName_iff n).1 hn).1
  unfold Join
  rw [if_neg (Stable_ne_nil p h), if_neg hnn]
  have : p ++ "/".toList ++ n = p ++ '/' :: n := by simp
  rw [this]
  exact Clean_extend p n h.1 h.2.1 h.2.2 hn

theorem Split_slash_name (n : Str) (hn : plainName n = true) : Split ('/' :: n) '/' = [[], n] := by
  rw [Split]
  simp [Split_no_sep n '/' ((plainName_iff n).1 hn).2.1]

theorem Clean_rooted_name (n : Str) (hn : plainName n = true) : Clean ('/' :: n) = '/' :: n := by
  unfold Clean
  rw [if_neg (by simp)]
  simp [Split_slash_name n hn, cleanStep_nil, cleanStep_plain _ _ _ hn, joinSlash]

theorem Clean_rooted_slash_name (n : Str) (hn : plainName n = true) :
    Clean ('/' :: '/' :: n) = '/' :: n := by
  have hs : Split ('/' :: '/' :: n) '/' = [[], [], n] := by
    rw [Split]
    simp [Split_slash_name n hn]
  unfold Clean
  rw [if_neg (by simp)]
  simp [hs, cleanStep_nil, cleanStep_plain _ _ _ hn, joinSlash]

theorem Stable_rooted_name (n : Str) (hn : plainName n = true) : Stable ('/' :: n) := by
  have hnn : n ≠ [] := ((plainName_iff n).1 hn).1
  refine ⟨Clean_rooted_name n hn, by simp, ?_⟩
  intro e
  apply hnn
  simpa using e

theorem Join_root (root n : Str) (h : walkRoot root = true) (hn : plainName n = true) :
    Join root n = stem root ++ '/' :: n := by
  have hnn : n ≠ [] := ((plainName_iff n).1 hn).1
  rcases Stable_of_walkRoot root h with rfl | hst
  · unfold Join
    rw [if_neg (by simp), if_neg hnn]
    exact Clean_rooted_slash_name n hn
  rcases stem_cases root with ⟨e, -⟩ | e
  · rw [e] at hst ⊢
    exact Join_stable root n hst hn
  · have hr : root ≠ [] := by
      rw [e]
      simp
    unfold Join
    rw [if_neg hr, if_neg hnn]
    have : root ++ "/".toList ++ n = stem root ++ '/' :: '/' :: n := by
      conv_lhs => rw [e]
      simp
    rw [this]
    exact Clean_extend_slash _ n hst.1 hst.2.1 hst.2.2 hn

theorem Stable_child (root n : Str) (h : walkRoot root = true) (hn : plainName n = true) :
    Stable (stem root ++ '/' :: n) := by
  rcases Stable_of_walkRoot root h with rfl | hst
  · exact Stable_rooted_name n hn
  · exact Stable_extend _ n hst hn

/-! ## Paths within the limits -/

theorem validName_iff (n : Str) :
    validName n = true ↔ plainName n = true ∧ nul ∉ n ∧ n.length ≤ NAME_MAX := by
  simp [validName]

theorem validPath_iff (p : Str) :
    validPath p = true ↔ p ≠ [] ∧ nul ∉ p ∧ p.length < PATH_MAX ∧
      ∀ c ∈ Split p '/', c.length ≤ NAME_MAX := by
  simp [validPath]

theorem nul_ne_slash : nul ≠ '/' := by decide

theorem PathOK_of_validPath (p : Str) (h : validPath p = true) :
    PathOK p (PATH_MAX - 1 - p.length) := by
  obtain ⟨-, h1, h2, h3⟩ := (validPath_iff p).1 h
  refine ⟨h1, h3, ?_⟩
  omega

theorem PathOK_valid (p : Str) (room : Nat) (h : PathOK p room) (hne : p ≠ []) :
    validPath p = true := by
  rw [validPath_iff]
  obtain ⟨h1, h2, h3⟩ := h
  exact ⟨hne, h1, by omega, h2⟩

theorem PathOK_mono (p : Str) (room room' : Nat) (h : PathOK p room) (hle : room' ≤ room) :
    PathOK p room' := by
  obtain ⟨h1, h2, h3⟩ := h
  exact ⟨h1, h2, by omega⟩

theorem PathOK_extend (p n : Str) (room : Nat) (h : PathOK p room) (hn : validName n = true)
    (hroom : n.length + 1 ≤ room) :
    PathOK (p ++ '/' :: n) (room - (n.length + 1)) := by
  obtain ⟨h1, h2, h3⟩ := h
  obtain ⟨hp, hnul, hlen⟩ := (validName_iff n).1 hn
  refine ⟨?_, ?_, ?_⟩
  · intro hmem
    rcases List.mem_append.1 hmem with hm | hm
    · exact h1 hm
    · rcases List.mem_cons.1 hm with hm | hm
      · exact nul_ne_slash hm
      · exact hnul hm
  · rw [Split_extend p n hp]
    intro c hc
    rcases List.mem_append.1 hc with hm | hm
    · exact h2 c hm
    · simp only [List.mem_singleton] at hm
      rw [hm]
      exact hlen
  · simp only [List.length_append, List.length_cons]
    omega

theorem PathOK_slash (p : Str) (room : Nat) (h : PathOK p room) (hroom : 1 ≤ room) :
    PathOK (p ++ ['/']) (room - 1) := by
  obtain ⟨h1, h2, h3⟩ := h
  refine ⟨?_, ?_, ?_⟩
  · intro hmem
    rcases List.mem_append.1 hmem with hm | hm
    · exact h1 hm
    · simp only [List.mem_singleton] at hm
      exact nul_ne_slash hm
  · rw [Split_append_sep_all]
    intro c hc
    rcases List.mem_append.1 hc with hm | hm
    · exact h2 c hm
    · simp only [Split, List.mem_singleton] at hm
      rw [hm]
      simp
  · simp only [List.length_append, List.length_singleton]
    omega

theorem PathOK_stem (root : Str) (room : Nat) (h : PathOK root room) :
    PathOK (stem root) room := by
  rcases stem_cases root with ⟨e, -⟩ | e
  · rw [e]
    exact h
  · obtain ⟨h1, h2, h3⟩ := h
    rw [e] at h1 h2 h3
    refine ⟨fun hm => h1 (List.mem_append_left _ hm), ?_, ?_⟩
    · intro c hc
      apply h2 c
      rw [Split_append_sep_all]
      exact List.mem_append_left _ hc
    · simp only [List.length_append, List.length_singleton] at h3
      omega

/-! ## The file system under the serializer -/

theorem mapGet_eq_none_iff {α : Type} (m : List (Str × α)) (k : Str) :
    mapGet m k = none ↔ k ∉ m.map Prod.fst := by
  induction m with
  | nil => simp [mapGet]
  | cons e rest ih =>
    obtain ⟨k', v'⟩ := e
    by_cases h : k' = k
    · subst h
      constructor
      · intro hh
        simp [mapGet] at hh
      · intro hh
        exact absurd (List.mem_cons_self _ _) hh
    · simp only [mapGet, h, if_false, ih, List.map_cons, List.mem_cons, not_or]
      constructor
      · intro hr
        exact ⟨fun e => h e.symm, hr⟩
      · intro hr
        exact hr.2

theorem mapSet_of_absent {α : Type} (m : List (Str × α)) (k : Str) (v : α)
    (h : mapGet m k = none) : mapSet m k v = m ++ [(k, v)] := by
  induction m with
  | nil => rfl
  | cons e rest ih =>
    obtain ⟨k', v'⟩ := e
    by_cases hk : k' = k
    · simp [mapGet, hk] at h
    · simp only [mapGet, hk, if_false] at h
      simp [mapSet, hk, ih h]

theorem mapSet_mapSet {α : Type} (m : List (Str × α)) (k : Str) (v v' : α) :
    mapSet (mapSet m k v) k v' = mapSet m k v' := by
  induction m with
  | nil => simp [mapSet]
  | cons e rest ih =>
    obtain ⟨k', w⟩ := e
    by_cases hk : k' = k
    · simp [mapSet, hk]
    · simp [mapSet, hk, ih]

theorem mapGet_of_mem {α : Type} (m : List (Str × α)) (k : Str) (v : α)
    (hnd : (m.map Prod.fst).Nodup) (h : (k, v) ∈ m) : mapGet m k = some v := by
  induction m with
  | nil => simp at h
  | cons e rest ih =>
    obtain ⟨k', w⟩ := e
    simp only [List.map_cons, List.nodup_cons] at hnd
    rcases List.mem_cons.1 h with h | h
    · cases h
      simp [mapGet]
    · have hk : k' ≠ k := by
        rintro rfl
        exact hnd.1 (List.mem_map.2 ⟨(k', v), h, rfl⟩)
      simp [mapGet, hk, ih hnd.2 h]

theorem Node.get_append (cs : List Str) (n : Str) (root : Node) :
    Node.get (cs ++ [n]) root =
      match Node.get cs root with
      | some (.dir es) => mapGet es n
      | _ => none := by
  induction cs generalizing root with
  | nil =>
    cases root with
    | file c r => simp [Node.get]
    | dir es =>
      simp only [List.nil_append, Node.get]
      cases mapGet es n <;> rfl
  | cons c rest ih =>
    cases root with
    | file c' r => simp [Node.get]
    | dir es =>
      simp only [List.cons_append, Node.get]
      cases mapGet es c with
      | none => rfl
      | some child => exact ih child

theorem Node.get_setAt (cs : List Str) (new root x : Node) (h : Node.get cs root = some x) :
    Node.get cs (Node.setAt cs new root) = some new := by
  induction cs generalizing root with
  | nil => simp [Node.get, Node.setAt]
  | cons c rest ih =>
    cases root with
    | file c' r => simp [Node.get] at h
    | dir es =>
      simp only [Node.get] at h
      cases hc : mapGet es c with
      | none => simp [hc] at h
      | some child =>
        simp only [hc] at h
        simp only [Node.setAt, hc, Node.get, mapGet_mapSet_same]
        exact ih child h

theorem Node.setAt_setAt (cs : List Str) (new1 new2 root x : Node)
    (h : Node.get cs root = some x) :
    Node.setAt cs new2 (Node.setAt cs new1 root) = Node.setAt cs new2 root := by
  induction cs generalizing root with
  | nil => simp [Node.setAt]
  | cons c rest ih =>
    cases root with
    | file c' r => simp [Node.get] at h
    | dir es =>
      simp only [Node.get] at h
      cases hc : mapGet es c with
      | none => simp [hc] at h
      | some child =>
        simp only [hc] at h
        simp only [Node.setAt, hc, mapGet_mapSet_same, mapSet_mapSet]
        rw [ih child h]

theorem Node.setAt_child (cs : List Str) (n : Str) (es' : List (Str × Node)) (new c root x : Node)
    (h : Node.get cs root = some x) (hc : mapGet es' n = some c) :
    Node.setAt (cs ++ [n]) new (Node.setAt cs (.dir es') root)
      = Node.setAt cs (.dir (mapSet es' n new)) root := by
  induction cs generalizing root with
  | nil => simp [Node.setAt, hc]
  | cons d rest ih =>
    cases root with
    | file c' r => simp [Node.get] at h
    | dir es =>
      simp only [Node.get] at h
      cases hd : mapGet es d with
      | none => simp [hd] at h
      | some child =>
        simp only [hd] at h
        simp only [List.cons_append, Node.setAt, hd, mapGet_mapSet_same, mapSet_mapSet]
        rw [ih child h]

theorem writeFileAt_new (cs : List Str) (n data : Str) (es : List (Str × Node)) (root : Node)
    (h : Node.get cs root = some (.dir es)) (hn : mapGet es n = none) :
    writeFileAt (cs ++ [n]) data root
      = some (Node.setAt cs (.dir (mapSet es n (.file data true))) root) := by
  induction cs generalizing root with
  | nil =>
    simp only [Node.get, Option.some.injEq] at h
    subst h
    simp [writeFileAt, hn, Node.setAt]
  | cons d rest ih =>
    cases root with
    | file c' r => simp [Node.get] at h
    | dir es0 =>
      simp only [Node.get] at h
      cases hd : mapGet es0 d with
      | none => simp [hd] at h
      | some child =>
        simp only [hd] at h
        have := ih child h
        cases rest with
        | nil =>
          simp only [List.cons_append, List.nil_append, writeFileAt, hd, Node.setAt] at this ⊢
          rw [this]
          rfl
        | cons d2 rest2 =>
          have this2 : writeFileAt (d2 :: (rest2 ++ [n])) data child = _ := this
          show writeFileAt (d :: d2 :: (rest2 ++ [n])) data (.dir es0) = _
          rw [writeFileAt]
          simp only [hd, this2, Node.setAt]
          rfl

theorem mkdirAllAt_new (cs : List Str) (n : Str) (es : List (Str × Node)) (root : Node)
    (h : Node.get cs root = some (.dir es)) (hn : mapGet es n = none) :
    mkdirAllAt (cs ++ [n]) root
      = some (Node.setAt cs (.dir (mapSet es n (.dir []))) root) := by
  induction cs generalizing root with
  | nil =>
    simp only [Node.get, Option.some.injEq] at h
    subst h
    simp [mkdirAllAt, hn, Node.setAt]
  | cons d rest ih =>
    cases root with
    | file c' r => simp [Node.get] at h
    | dir es0 =>
      simp only [Node.get] at h
      cases hd : mapGet es0 d with
      | none => simp [hd] at h
      | some child =>
        simp only [hd] at h
        have := ih child h
        show mkdirAllAt (d :: (rest ++ [n])) (.dir es0) = _
        rw [mkdirAllAt]
        simp only [hd, this, Node.setAt]
        rfl

/-! ## What the serializer writes -/

theorem leafFilename_eq (base path key : Str) :
    leafFilename base path key = (base ++ '/' :: path) ++ '/' :: (key ++ ".js".toList) := by
  simp [leafFilename]

theorem objectDirname_eq (base path key : Str) :
    objectDirname base path key = (base ++ '/' :: path) ++ '/' :: key := by
  simp [objectDirname]

theorem childPath_eq (base path key : Str) :
    base ++ '/' :: childPath path key = (base ++ '/' :: path) ++ '/' :: key := by
  simp [childPath]

theorem plainName_js (key : Str) (h2 : '/' ∉ key) :
    plainName (key ++ ".js".toList) = true := by
  rw [plainName_iff]
  refine ⟨by simp, ?_, ?_, ?_⟩
  · intro h
    rcases List.mem_append.1 h with h | h
    · exact h2 h
    · revert h
      decide
  · intro h
    have := congrArg List.length h
    simp at this
  · intro h
    have := congrArg List.length h
    simp at this

theorem serializableDoc_cons (k : Str) (v : Value) (rest : Doc) (room : Nat) :
    serializableDoc ((k, v) :: rest) room = true ↔
      keyOK (k, v) = true ∧ (entryName (k, v)).length + 1 ≤ room ∧
      serializable v (room - ((entryName (k, v)).length + 1)) = true ∧
      serializableDoc rest room = true := by
  simp [serializableDoc, and_assoc]

theorem serializable_obj (m : Doc) (room : Nat) :
    serializable (.obj m) room = true ↔
      serializableDoc m room = true ∧ (m.map Prod.fst).Nodup ∧ (m.map entryName).Nodup := by
  simp [serializable, and_assoc]

theorem keyOK_iff (e : Str × Value) :
    keyOK e = true ↔ e.1 ≠ [] ∧ validName (entryName e) = true := by
  simp [keyOK]

theorem writeOK (cur n : Str) (room : Nat) (h : PathOK cur room) (hn : validName n = true)
    (hroom : n.length + 1 ≤ room) : validPath (cur ++ '/' :: n) = true :=
  PathOK_valid _ _ (PathOK_extend cur n room h hn hroom) (by simp)

mutual
theorem recurseDocument_writes (base : Str) :
    ∀ (d : Doc) (path : Str) (w : World) (E : List (Str × Node)) (room : Nat),
      PathOK (base ++ '/' :: path) room →
      Node.get (components (base ++ '/' :: path)) w.fs = some (.dir E) →
      serializableDoc d room = true →
      (∀ e ∈ d, entryName e ∉ E.map Prod.fst) →
      (d.map entryName).Nodup →
      ∃ log', recurseDocument d base path w
        = .done ⟨Node.setAt (components (base ++ '/' :: path)) (.dir (E ++ treeOf d)) w.fs, log'⟩
  | [], path, w, E, _, _, hg, _, _, _ => by
    refine ⟨w.log, ?_⟩
    have : Node.setAt (components (base ++ '/' :: path)) (.dir (E ++ treeOf [])) w.fs = w.fs := by
      simp only [treeOf, List.append_nil]
      clear * - hg
      generalize components (base ++ '/' :: path) = cs at hg
      generalize w.fs = root at hg
      induction cs generalizing root with
      | nil =>
        simp only [Node.get, Option.some.injEq] at hg
        simp [Node.setAt, hg]
      | cons c rest ih =>
        cases root with
        | file c' r => simp [Node.get] at hg
        | dir es =>
          simp only [Node.get] at hg
          cases hc : mapGet es c with
          | none => simp [hc] at hg
          | some child =>
            simp only [hc] at hg
            simp only [Node.setAt, hc, ih child hg]
            congr 1
            clear hg ih
            induction es with
            | nil => simp [mapGet] at hc
            | cons e es' ih2 =>
              obtain ⟨k', v'⟩ := e
              by_cases hk : k' = c
              · subst hk
                simp only [mapGet, if_true, Option.some.injEq] at hc
                simp [mapSet, hc]
              · simp only [mapGet, hk, if_false] at hc
                simp [mapSet, hk, ih2 hc]
    rw [recurseDocument, this]
  | (k, v) :: rest, path, w, E, room, hp, hg, hs, hE, hnd => by
    obtain ⟨hk, hroom, hv, hrest⟩ := (serializableDoc_cons k v rest room).1 hs
    simp only [List.map_cons, List.nodup_cons] at hnd
    obtain ⟨log1, h1⟩ := recurseEntry_writes base v k path w E room hp hg hk hroom hv
      (hE (k, v) (by simp))
    rw [recurseDocument, h1]
    have hg1 : Node.get (components (base ++ '/' :: path))
        (Node.setAt (components (base ++ '/' :: path)) (.dir (E ++ treeOfEntry v k)) w.fs)
        = some (.dir (E ++ treeOfEntry v k)) := Node.get_setAt _ _ _ _ hg
    have hnames : (treeOfEntry v k).map Prod.fst = [entryName (k, v)] := by
      cases v with
      | str s => simp [treeOfEntry, entryName]
      | obj m => simp [treeOfEntry, entryName]
      | other kd => simp [serializable] at hv
    have hE1 : ∀ e ∈ rest, entryName e ∉ (E ++ treeOfEntry v k).map Prod.fst := by
      intro e he hmem
      rw [List.map_append, hnames] at hmem
      rcases List.mem_append.1 hmem with h | h
      · exact hE e (by simp [he]) h
      · simp only [List.mem_singleton] at h
        exact hnd.1 (h ▸ List.mem_map.2 ⟨e, he, rfl⟩)
    obtain ⟨log2, h2⟩ := recurseDocument_writes base rest path
      ⟨Node.setAt (components (base ++ '/' :: path)) (.dir (E ++ treeOfEntry v k)) w.fs, log1⟩
      (E ++ treeOfEntry v k) room hp hg1 hrest hE1 hnd.2
    refine ⟨log2, ?_⟩
    simp only at h2 ⊢
    rw [h2, Node.setAt_setAt _ _ _ _ _ hg]
    simp [treeOf]
theorem recurseEntry_writes (base : Str) :
    ∀ (v : Value) (key path : Str) (w : World) (E : List (Str × Node)) (room : Nat),
      PathOK (base ++ '/' :: path) room →
      Node.get (components (base ++ '/' :: path)) w.fs = some (.dir E) →
      keyOK (key, v) = true →
      (entryName (key, v)).length + 1 ≤ room →
      serializable v (room - ((entryName (key, v)).length + 1)) = true →
      entryName (key, v) ∉ E.map Prod.fst →
      ∃ log', recurseEntry v key base path w
        = .done ⟨Node.setAt (components (base ++ '/' :: path)) (.dir (E ++ treeOfEntry v key)) w.fs,
            log'⟩
  | .str child, key, path, w, E, room, hp, hg, hk, hroom, _, hE => by
    have hvn : validName (key ++ ".js".toList) = true := ((keyOK_iff _).1 hk).2
    have hn : plainName (key ++ ".js".toList) = true := ((validName_iff _).1 hvn).1
    have hslice : sliceFrom (leafFilename base path key) ((base.length : Int) + 1)
        = some (path ++ '/' :: (key ++ ".js".toList)) := by
      have : leafFilename base path key = base ++ '/' :: (path ++ '/' :: (key ++ ".js".toList)) := by
        simp [leafFilename]
      rw [this, sliceFrom_append_succ]
    have hnone : mapGet E (key ++ ".js".toList) = none :=
      (mapGet_eq_none_iff E _).2 hE
    have hvalid : validPath ((base ++ '/' :: path) ++ '/' :: (key ++ ".js".toList)) = true :=
      writeOK _ _ room hp hvn hroom
    have hwrite : WriteFile w.fs (leafFilename base path key) child
        = .ok (Node.setAt (components (base ++ '/' :: path))
            (.dir (E ++ [(key ++ ".js".toList, .file child true)])) w.fs) := by
      unfold WriteFile
      rw [leafFilename_eq, if_pos hvalid, components_extend _ _ hn,
        writeFileAt_new _ _ _ _ _ hg hnone, mapSet_of_absent _ _ _ hnone]
    rw [recurseEntry]
    simp only [hslice, World.printf, hwrite, treeOfEntry]
    exact ⟨_, rfl⟩
  | .obj child, key, path, w, E, room, hp, hg, hk, hroom, hv, hE => by
    have hvn : validName key = true := ((keyOK_iff _).1 hk).2
    have hn : plainName key = true := ((validName_iff _).1 hvn).1
    have hroom' : key.length + 1 ≤ room := hroom
    have hv' : serializable (.obj child) (room - (key.length + 1)) = true := hv
    obtain ⟨hchild, hnd1, hnd2⟩ := (serializable_obj child _).1 hv'
    have hnone : mapGet E key = none :=
      (mapGet_eq_none_iff E _).2 hE
    have hvalid : validPath ((base ++ '/' :: path) ++ '/' :: key) = true :=
      writeOK _ _ room hp hvn hroom'
    have hmk : MkdirAll w.fs (objectDirname base path key)
        = .ok (Node.setAt (components (base ++ '/' :: path))
            (.dir (E ++ [(key, .dir [])])) w.fs) := by
      unfold MkdirAll
      rw [objectDirname_eq, if_pos hvalid, components_extend _ _ hn,
        mkdirAllAt_new _ _ _ _ hg hnone, mapSet_of_absent _ _ _ hnone]
    have hp' : PathOK (base ++ '/' :: childPath path key) (room - (key.length + 1)) := by
      rw [childPath_eq]
      exact PathOK_extend _ _ room hp hvn hroom'
    have hcomp : components (base ++ '/' :: childPath path key)
        = components (base ++ '/' :: path) ++ [key] := by
      rw [childPath_eq, components_extend _ _ hn]
    have hget : mapGet (E ++ [(key, Node.dir [])]) key = some (.dir []) := by
      rw [← mapSet_of_absent _ _ _ hnone, mapGet_mapSet_same]
    have hg' : Node.get (components (base ++ '/' :: childPath path key))
        (Node.setAt (components (base ++ '/' :: path)) (.dir (E ++ [(key, .dir [])])) w.fs)
        = some (.dir []) := by
      rw [hcomp, Node.get_append, Node.get_setAt _ _ _ _ hg]
      exact hget
    obtain ⟨log2, h2⟩ := recurseDocument_writes base child (childPath path key)
      ⟨Node.setAt (components (base ++ '/' :: path)) (.dir (E ++ [(key, .dir [])])) w.fs,
        (w.printf "[DEBUG] mkdir %s".toList [.s (objectDirname base path key)]).log⟩
      [] (room - (key.length + 1)) hp' hg' hchild (by simp) hnd2
    refine ⟨log2, ?_⟩
    rw [recurseEntry]
    simp only [World.printf, hmk] at h2 ⊢
    rw [h2, hcomp, Node.setAt_child _ _ _ _ _ _ _ hg hget]
    simp only [List.nil_append, treeOfEntry]
    rw [← mapSet_of_absent _ _ _ hnone, mapSet_mapSet, mapSet_of_absent _ _ _ hnone]
  | .other _, _, _, _, _, _, _, _, _, _, hv, _ => by
    simp [serializable] at hv
end

/-! ## Bindings written by the loop of `put` -/

theorem putLoop_isSome_indep (ks : List Str) (k k' : Str) (v v' : Value) (d : Doc)
    (h : putLoop ks k v d = none) : putLoop ks k' v' d = none := by
  rw [putLoop_eq_none_iff] at h ⊢
  exact h

theorem putLoop_below (ks : List Str) (n k : Str) (m : Doc) (v : Value) (d d1 : Doc)
    (h : putLoop ks n (.obj m) d = some d1) :
    putLoop (ks ++ [n]) k v d1 = putLoop ks n (.obj (mapSet m k v)) d := by
  induction ks generalizing d d1 with
  | nil =>
    simp only [putLoop, Option.some.injEq] at h
    subst h
    simp [putLoop, mapGet_mapSet_same, mapSet_mapSet]
  | cons c rest ih =>
    rw [putLoop] at h
    cases hc : mapGet d c with
    | none => simp [hc] at h
    | some val =>
      cases val with
      | str s => simp [hc] at h
      | other kd => simp [hc] at h
      | obj d0 =>
        simp only [hc, Option.map_eq_some'] at h
        obtain ⟨d0', hd0, rfl⟩ := h
        show putLoop (c :: (rest ++ [n])) k v _ = putLoop (c :: rest) n _ d
        rw [putLoop, putLoop]
        simp only [mapGet_mapSet_same, hc, ih d0 d0' hd0, mapSet_mapSet]

theorem applyAll_below (ks : List Str) (n : Str) (l : List (Str × Option (Str × Value)))
    (m : Doc) (d d1 : Doc) (h : putLoop ks n (.obj m) d = some d1) :
    applyAll (ks ++ [n]) l d1 = putLoop ks n (.obj (l.foldl addBinding m)) d := by
  induction l generalizing m d1 with
  | nil => simpa [applyAll] using h.symm
  | cons e rest ih =>
    obtain ⟨name, b⟩ := e
    cases b with
    | none =>
      simp only [applyAll, applyBinding, List.foldl_cons, addBinding]
      exact ih m d1 h
    | some kv =>
      obtain ⟨k, v⟩ := kv
      simp only [applyAll, applyBinding, List.foldl_cons, addBinding]
      rw [putLoop_below ks n k m v d d1 h]
      cases h2 : putLoop ks n (.obj (mapSet m k v)) d with
      | none =>
        have := putLoop_isSome_indep ks n n _ (.obj m) d h2
        rw [h] at this
        cases this
      | some d2 => exact ih (mapSet m k v) d2 h2

theorem applyAll_root (l : List (Str × Option (Str × Value))) (d : Doc) :
    applyAll [] l d = some (l.foldl addBinding d) := by
  induction l generalizing d with
  | nil => rfl
  | cons e rest ih =>
    obtain ⟨name, b⟩ := e
    cases b with
    | none =>
      simp only [applyAll, applyBinding, List.foldl_cons, addBinding]
      exact ih d
    | some kv =>
      obtain ⟨k, v⟩ := kv
      simp only [applyAll, applyBinding, putLoop, List.foldl_cons, addBinding]
      exact ih _

/-! ## The walk function on an entry below the root -/

theorem pathOf_concat (r : Str) (ks : List Str) (n : Str) :
    pathOf r (ks ++ [n]) = pathOf r ks ++ '/' :: n := by
  simp [pathOf, List.foldl_append, childPath]

theorem pathOf_eq (r : Str) (ks : List Str) (h : ks ≠ []) :
    pathOf r ks = r ++ '/' :: joinSlash ks := by
  unfold pathOf
  rw [foldl_childPath, joinSlash_cons r ks h]

theorem Stable_pathOf (r : Str) (ks : List Str) (hr : Stable r)
    (hks : ∀ k ∈ ks, plainName k = true) : Stable (pathOf r ks) := by
  induction ks using List.reverseRecOn with
  | nil => exact hr
  | append_singleton ks n ih =>
    rw [pathOf_concat]
    exact Stable_extend _ _ (ih (fun k hk => hks k (by simp [hk]))) (hks n (by simp))

theorem Stable_entry (root : Str) (hr : walkRoot root = true) (ks : List Str) (n : Str)
    (hks : ∀ k ∈ ks ++ [n], plainName k = true) : Stable (pathOf (stem root) (ks ++ [n])) := by
  cases ks with
  | nil =>
    have e : pathOf (stem root) ([] ++ [n]) = stem root ++ '/' :: n := by
      simp [pathOf, childPath]
    rw [e]
    exact Stable_child root n hr (hks n (by simp))
  | cons k rest =>
    have e : pathOf (stem root) (k :: rest ++ [n]) = pathOf (stem root ++ '/' :: k) (rest ++ [n]) := by
      simp [pathOf, childPath]
    rw [e]
    exact Stable_pathOf _ _ (Stable_child root k hr (hks k (by simp)))
      (fun x hx => hks x (by simp [hx]))

theorem components_pathOf (r : Str) (ks : List Str) (hks : ∀ k ∈ ks, plainName k = true) :
    components (pathOf r ks) = components r ++ ks := by
  induction ks using List.reverseRecOn with
  | nil => simp [pathOf]
  | append_singleton ks n ih =>
    rw [pathOf_concat, components_extend _ _ (hks n (by simp)),
      ih (fun k hk => hks k (by simp [hk]))]
    simp

theorem put_joinSlash (ks : List Str) (n : Str) (v : Value) (d : Doc)
    (hks : ∀ k ∈ ks, '/' ∉ k) (hn : '/' ∉ n) :
    put (joinSlash (ks ++ [n])) v d = putLoop ks n v d := by
  have hs : Split (joinSlash (ks ++ [n])) '/' = ks ++ [n] :=
    Split_joinSlash _ (by simp) (by
      intro s hs
      rcases List.mem_append.1 hs with h | h
      · exact hks s h
      · simp only [List.mem_singleton] at h
        rw [h]
        exact hn)
  rw [put_eq_putLoop, hs]
  simp

theorem joinSlash_concat_append (ks : List Str) (n s : Str) :
    joinSlash (ks ++ [n ++ s]) = joinSlash (ks ++ [n]) ++ s := by
  cases ks with
  | nil => simp [joinSlash]
  | cons k rest =>
    rw [joinSlash_concat _ _ (by simp), joinSlash_concat _ _ (by simp)]
    simp

theorem sliceFrom_le (s : Str) (i : Nat) (h : i ≤ s.length) :
    sliceFrom s (i : Int) = some (s.drop i) := by
  unfold sliceFrom
  rw [if_pos ⟨by omega, by omega⟩]
  simp

theorem removeBasePath_root (root rel : Str) (h : walkRoot root = true) (hrel : rel ≠ []) :
    removeBasePath root (stem root ++ '/' :: rel) = some rel := by
  rcases stem_cases root with ⟨e, hl⟩ | e
  · have hne : root ≠ [] := by
      rcases Stable_of_walkRoot root h with h1 | hst
      · rw [h1]
        simp
      · rw [e] at hst
        exact Stable_ne_nil root hst
    rw [e]
    exact removeBasePath_plain_base root rel hne hl
  · cases rel with
    | nil => exact absurd rfl hrel
    | cons c t =>
      have := removeBasePath_slash_base (stem root) t c
      rw [← e] at this
      have e2 : stem root ++ '/' :: c :: t = root ++ c :: t := by
        conv_rhs => rw [e]
        simp
      rw [e2]
      exact this

theorem root_ne_entry (root rel : Str) (hrel : rel ≠ []) : stem root ++ '/' :: rel ≠ root := by
  intro e
  rcases stem_cases root with ⟨e1, -⟩ | e1
  · rw [e1] at e
    have := congrArg List.length e
    simp at this
  · have := congrArg List.length e
    rw [List.length_append, List.length_cons] at this
    have h2 := congrArg List.length e1
    rw [List.length_append, List.length_singleton] at h2
    have : rel.length = 0 := by omega
    exact hrel (List.length_eq_zero.1 this)

theorem sliceFrom_root (root rel : Str) :
    ∃ x, sliceFrom (stem root ++ '/' :: rel) (root.length : Int) = some x := by
  refine ⟨_, sliceFrom_le _ _ ?_⟩
  rcases stem_cases root with ⟨e1, -⟩ | e1
  · rw [e1]
    simp
  · have h2 := congrArg List.length e1
    rw [List.length_append, List.length_singleton] at h2
    simp only [List.length_append, List.length_cons]
    omega

theorem joinSlash_ne_nil (ks : List Str) (n : Str) (h : ks ≠ [] ∨ n ≠ []) :
    joinSlash (ks ++ [n]) ≠ [] := by
  cases ks with
  | nil =>
    rcases h with h | h
    · exact absurd rfl h
    · simpa [joinSlash] using h
  | cons k rest =>
    rw [joinSlash_concat _ _ (by simp)]
    simp

theorem fileKey_root (root : Str) (ks : List Str) (n : Str) (hr : walkRoot root = true)
    (hne : ks ≠ [] ∨ n ≠ []) :
    fileKey root (stem root ++ '/' :: joinSlash (ks ++ [n ++ ".js".toList]))
      = some (joinSlash (ks ++ [n])) := by
  unfold fileKey
  have e : stem root ++ '/' :: joinSlash (ks ++ [n ++ ".js".toList])
      = (stem root ++ '/' :: joinSlash (ks ++ [n])) ++ ".js".toList := by
    rw [joinSlash_concat_append]
    simp
  rw [e, sliceTo_append (stem root ++ '/' :: joinSlash (ks ++ [n])) ".js".toList 3 rfl]
  simp only [Option.bind_eq_bind, Option.some_bind]
  exact removeBasePath_root root _ hr (joinSlash_ne_nil ks n hne)

theorem starMatch_true (k : Str → Bool) (s : Str) (h : starMatch k s = true) :
    ∃ a b, s = a ++ b ∧ k b = true := by
  induction s with
  | nil => exact ⟨[], [], rfl, by simpa [starMatch] using h⟩
  | cons c t ih =>
    simp only [starMatch, Bool.or_eq_true, Bool.and_eq_true] at h
    rcases h with h | ⟨-, h⟩
    · exact ⟨[], c :: t, rfl, h⟩
    · obtain ⟨a, b, rfl, hb⟩ := ih h
      exact ⟨c :: a, b, rfl, hb⟩

theorem starMatch_append (k : Str → Bool) (a b : Str) (ha : '/' ∉ a) (hb : k b = true) :
    starMatch k (a ++ b) = true := by
  induction a with
  | nil =>
    cases b with
    | nil => simpa [starMatch] using hb
    | cons c t => simp [starMatch, hb]
  | cons c t ih =>
    have hc : c ≠ '/' := fun e => ha (by simp [e])
    have ht : '/' ∉ t := fun e => ha (by simp [e])
    simp [starMatch, hc, ih ht]

theorem globMatch_js_lit (s : Str) : globMatch ".js".toList s = true ↔ s = ".js".toList := by
  constructor
  · intro h
    match s, h with
    | [a, b, c], h =>
      simp [globMatch] at h
      obtain ⟨h1, h2, h3⟩ := h
      subst h1 h2 h3
      rfl
    | [], h => simp [globMatch] at h
    | [a], h => simp [globMatch] at h
    | [a, b], h => simp [globMatch] at h
    | a :: b :: c :: d :: t, h => simp [globMatch] at h
  · rintro rfl
    decide

theorem globMatch_star_js (n : Str) (h : globMatch "*.js".toList n = true) :
    n = n.take (n.length - 3) ++ ".js".toList := by
  have h' : starMatch (globMatch ".js".toList) n = true := by
    have : globMatch "*.js".toList n = starMatch (globMatch ".js".toList) n := rfl
    rwa [this] at h
  obtain ⟨a, b, rfl, hb⟩ := starMatch_true _ _ h'
  rw [(globMatch_js_lit b).1 hb]
  simp

theorem globMatch_star_js_of (k : Str) (hk : '/' ∉ k) :
    globMatch "*.js".toList (k ++ ".js".toList) = true := by
  have : globMatch "*.js".toList (k ++ ".js".toList)
      = starMatch (globMatch ".js".toList) (k ++ ".js".toList) := rfl
  rw [this]
  exact starMatch_append _ _ _ hk ((globMatch_js_lit _).2 rfl)

theorem Match_js (n : Str) : Match "*.js".toList n = .ok (globMatch "*.js".toList n) := by
  unfold Match
  rw [if_neg (by decide)]

/-! ## The walk of a tree the walk can read in full -/

theorem pathOf_entry_ne_nil (r : Str) (ks : List Str) (n : Str) : pathOf r (ks ++ [n]) ≠ [] := by
  rw [pathOf_eq r _ (by simp)]
  simp

theorem RecursePath_dir (fs : Node) (root : Str) (hr : walkRoot root = true) (ks : List Str)
    (n : Str) (d : Doc) (hks : ∀ k ∈ ks, plainName k = true) (hn : plainName n = true) :
    RecursePath fs root "*.js".toList (pathOf (stem root) (ks ++ [n])) (some ⟨n, true⟩) none d
      = walkResult (putLoop ks n (.obj []) d) := by
  rw [pathOf_eq (stem root) _ (by simp)]
  have hrel : joinSlash (ks ++ [n]) ≠ [] :=
    joinSlash_ne_nil ks n (Or.inr ((plainName_iff n).1 hn).1)
  have hne := root_ne_entry root _ hrel
  obtain ⟨x, hsl⟩ := sliceFrom_root root (joinSlash (ks ++ [n]))
  have hrm := removeBasePath_root root _ hr hrel
  have hput : put (joinSlash (ks ++ [n])) (.obj []) d = putLoop ks n (.obj []) d :=
    put_joinSlash ks n _ d (fun k hk => ((plainName_iff k).1 (hks k hk)).2.1)
      ((plainName_iff n).1 hn).2.1
  unfold RecursePath
  simp only [if_neg hne, Match_js, hsl, hrm, hput, if_true]
  cases putLoop ks n (.obj []) d <;> rfl

theorem RecursePath_file (fs : Node) (root : Str) (hr : walkRoot root = true) (ks : List Str)
    (n : Str) (d : Doc) (c : Str) (hks : ∀ k ∈ ks, plainName k = true) (hn : plainName n = true)
    (hjs : n ≠ ".js".toList)
    (hvalid : validPath (pathOf (stem root) (ks ++ [n])) = true)
    (hget : Node.get (components (pathOf (stem root) (ks ++ [n]))) fs = some (.file c true)) :
    RecursePath fs root "*.js".toList (pathOf (stem root) (ks ++ [n])) (some ⟨n, false⟩) none d
      = walkResult (applyBinding ks (binding (.file c true) n) d) := by
  rw [pathOf_eq (stem root) _ (by simp)] at hget hvalid ⊢
  have hrel : joinSlash (ks ++ [n]) ≠ [] :=
    joinSlash_ne_nil ks n (Or.inr ((plainName_iff n).1 hn).1)
  have hne := root_ne_entry root _ hrel
  obtain ⟨x, hsl⟩ := sliceFrom_root root (joinSlash (ks ++ [n]))
  have hrm := removeBasePath_root root _ hr hrel
  have hread : ReadFile fs (stem root ++ '/' :: joinSlash (ks ++ [n])) = .ok c := by
    unfold ReadFile
    rw [if_pos hvalid, hget]
  unfold RecursePath
  simp only [if_neg hne, Match_js, hsl, hrm, hread, binding]
  by_cases hm : globMatch "*.js".toList n = true
  · have hn' := globMatch_star_js n hm
    have hslash : '/' ∉ n.take (n.length - 3) := fun h =>
      ((plainName_iff n).1 hn).2.1 (List.mem_of_mem_take h)
    have hkey : n.take (n.length - 3) ≠ [] := by
      intro e
      rw [e] at hn'
      exact hjs hn'
    have hfk : fileKey root (stem root ++ '/' :: joinSlash (ks ++ [n]))
        = some (joinSlash (ks ++ [n.take (n.length - 3)])) := by
      conv_lhs => rw [hn']
      exact fileKey_root root ks _ hr (Or.inr hkey)
    have hput : put (joinSlash (ks ++ [n.take (n.length - 3)])) (.str c) d
        = putLoop ks (n.take (n.length - 3)) (.str c) d :=
      put_joinSlash ks _ _ d (fun k hk => ((plainName_iff k).1 (hks k hk)).2.1) hslash
    simp only [hm, if_true, hfk, hput, applyBinding]
    cases putLoop ks (n.take (n.length - 3)) (.str c) d <;> simp [walkResult]
  · simp only [hm, applyBinding, walkResult]
    simp

mutual
theorem Node.induct_node (P : Node → Prop) (hfile : ∀ c r, P (.file c r))
    (hdir : ∀ es, (∀ e ∈ es, P e.2) → P (.dir es)) : ∀ n, P n
  | .file c r => hfile c r
  | .dir es => hdir es (Node.induct_nodes P hfile hdir es)
theorem Node.induct_nodes (P : Node → Prop) (hfile : ∀ c r, P (.file c r))
    (hdir : ∀ es, (∀ e ∈ es, P e.2) → P (.dir es)) : ∀ (es : List (Str × Node)), ∀ e ∈ es, P e.2
  | [], _, he => by simp at he
  | (n, c) :: rest, e, he => by
    rcases List.mem_cons.1 he with h | h
    · rw [h]
      exact Node.induct_node P hfile hdir c
    · exact Node.induct_nodes P hfile hdir rest e h
end

theorem walkEntries_eq_map (fn : WalkFunc) (es : List (Str × Node)) :
    walkEntries fn es = es.map (fun e => (e.1, fun filename d => walk fn e.2 filename e.1 d)) := by
  induction es with
  | nil => simp [walkEntries]
  | cons e rest ih =>
    obtain ⟨n, c⟩ := e
    simp [walkEntries, ih]

theorem bindings_eq_map (es : List (Str × Node)) :
    bindings es = es.map (fun e => (e.1, binding e.2 e.1)) := by
  induction es with
  | nil => simp [bindings]
  | cons e rest ih =>
    obtain ⟨n, c⟩ := e
    simp [bindings, ih]

theorem sortByName_map {α β : Type} (f : Str × α → Str × β) (hf : ∀ e, (f e).1 = e.1)
    (l : List (Str × α)) : sortByName (l.map f) = (sortByName l).map f := by
  unfold sortByName
  symm
  apply List.map_insertionSort
  intro a _ b _
  rw [hf a, hf b]

theorem sortByName_perm {α : Type} (l : List (Str × α)) : (sortByName l).Perm l :=
  List.perm_insertionSort _ l

theorem entriesWalkable_mem (es : List (Str × Node)) (room : Nat)
    (h : entriesWalkable es room = true) :
    ∀ e ∈ es, validName e.1 = true ∧ hasKey e.2 e.1 = true ∧ e.1.length + 1 ≤ room ∧
      e.2.walkable (room - (e.1.length + 1)) = true := by
  induction es with
  | nil => simp
  | cons e rest ih =>
    obtain ⟨n, c⟩ := e
    simp only [entriesWalkable, Bool.and_eq_true, decide_eq_true_eq] at h
    intro e he
    rcases List.mem_cons.1 he with h1 | h1
    · rw [h1]
      exact ⟨h.1.1.1.1, h.1.1.1.2, h.1.1.2, h.1.2⟩
    · exact ih h.2 e h1

theorem Node.walkable_dir (es : List (Str × Node)) (room : Nat) :
    (Node.dir es).walkable room = true ↔
      entriesWalkable es room = true ∧ (es.map Prod.fst).Nodup := by
  simp [Node.walkable]

theorem walkNames_entries (fs : Node) (root : Str) (ks : List Str)
    (hks : ∀ k ∈ ks, plainName k = true) (es : List (Str × Node)) (room : Nat) (dp : Str)
    (hdp : ∀ n, plainName n = true → Join dp n = pathOf (stem root) (ks ++ [n]))
    (hes : Node.get (components (pathOf (stem root) ks)) fs = some (.dir es))
    (hnd : (es.map Prod.fst).Nodup)
    (hok : PathOK (pathOf (stem root) ks) room)
    (l : List (Str × Node))
    (hl : ∀ e ∈ l, e ∈ es ∧ validName e.1 = true ∧ hasKey e.2 e.1 = true ∧ e.1.length + 1 ≤ room ∧
      e.2.walkable (room - (e.1.length + 1)) = true ∧ WalkSpec fs root e.2)
    (d : Doc) :
    walkNames (RecursePath fs root "*.js".toList)
        (l.map (fun e => (e.1, fun filename d =>
          walk (RecursePath fs root "*.js".toList) e.2 filename e.1 d)))
        dp d
      = walkResult (applyAll ks (l.map (fun e => (e.1, binding e.2 e.1))) d) := by
  induction l generalizing d with
  | nil => rfl
  | cons e rest ih =>
    obtain ⟨hmem, hvn, hjs, hroom, hwalk, hspec⟩ := hl e (by simp)
    have hplain : plainName e.1 = true := ((validName_iff e.1).1 hvn).1
    have hjoin := hdp e.1 hplain
    have hok' : PathOK (pathOf (stem root) (ks ++ [e.1])) (room - (e.1.length + 1)) := by
      rw [pathOf_concat]
      exact PathOK_extend _ _ room hok hvn hroom
    have hvalid : validPath (pathOf (stem root) (ks ++ [e.1])) = true :=
      PathOK_valid _ _ hok' (pathOf_entry_ne_nil _ _ _)
    have hget : Node.get (components (pathOf (stem root) (ks ++ [e.1]))) fs = some e.2 := by
      rw [pathOf_concat, components_extend _ _ hplain, Node.get_append, hes]
      exact mapGet_of_mem es e.1 e.2 hnd hmem
    have hw := hspec (room - (e.1.length + 1)) ks e.1 d hwalk hks hvn hjs hok' hget
    simp only [List.map_cons, walkNames, applyAll, hjoin, hvalid, if_true, hw]
    cases applyBinding ks (binding e.2 e.1) d with
    | none => rfl
    | some d1 =>
      simp only [walkResult]
      exact ih (fun e' he' => hl e' (by simp [he'])) d1

theorem walk_spec (fs : Node) (root : Str) (hr : walkRoot root = true) :
    ∀ node, WalkSpec fs root node := by
  intro node
  induction node using Node.induct_node with
  | hfile c rd =>
    intro room ks n d hw hks hvn hjs hok hget
    have : rd = true := by simpa [Node.walkable] using hw
    subst this
    have hjs : n ≠ ".js".toList := by simpa [hasKey] using hjs
    rw [walk]
    exact RecursePath_file fs root hr ks n d c hks ((validName_iff n).1 hvn).1 hjs
      (PathOK_valid _ _ hok (pathOf_entry_ne_nil _ _ _)) hget
  | hdir es ih =>
    intro room ks n d hw hks hvn hjs hok hget
    have hn : plainName n = true := ((validName_iff n).1 hvn).1
    obtain ⟨hew, hnd⟩ := (Node.walkable_dir es room).1 hw
    rw [walk, RecursePath_dir fs root hr ks n d hks hn]
    cases hput : putLoop ks n (.obj []) d with
    | none =>
      simp only [walkResult, binding, applyBinding]
      rw [putLoop_isSome_indep ks n n _ _ d hput]
    | some d1 =>
      simp only [walkResult]
      have hks' : ∀ k ∈ ks ++ [n], plainName k = true := by
        intro k hk
        rcases List.mem_append.1 hk with h | h
        · exact hks k h
        · simp only [List.mem_singleton] at h
          rw [h]
          exact hn
      have hst : Stable (pathOf (stem root) (ks ++ [n])) := Stable_entry root hr ks n hks'
      have hdp : ∀ m, plainName m = true →
          Join (pathOf (stem root) (ks ++ [n])) m = pathOf (stem root) (ks ++ [n] ++ [m]) := by
        intro m hm
        rw [Join_stable _ _ hst hm, pathOf_concat _ (ks ++ [n]) m]
      have hsorted : ∀ e ∈ sortByName es, e ∈ es ∧ validName e.1 = true ∧ hasKey e.2 e.1 = true ∧
          e.1.length + 1 ≤ room ∧ e.2.walkable (room - (e.1.length + 1)) = true ∧
          WalkSpec fs root e.2 := by
        intro e he
        have hmem : e ∈ es := (List.mem_insertionSort _).1 he
        obtain ⟨h1, h2, h3, h4⟩ := entriesWalkable_mem es room hew e hmem
        exact ⟨hmem, h1, h2, h3, h4, ih e hmem⟩
      rw [walkEntries_eq_map, sortByName_map (fun e : Str × Node => (e.1, fun filename d => walk (RecursePath fs root "*.js".toList) e.2 filename e.1 d)) (fun _ => rfl),
        walkNames_entries fs root (ks ++ [n]) hks' es room _ hdp hget hnd hok (sortByName es)
          hsorted d1,
        ← sortByName_map (fun e : Str × Node => (e.1, binding e.2 e.1)) (fun _ => rfl), ← bindings_eq_map,
        applyAll_below ks n _ [] d d1 hput]
      simp only [binding, applyBinding, buildDoc, walkResult]

theorem Lstat_ok (fs : Node) (path : Str) (node : Node) (h : Lstat fs path = .ok node) :
    validPath path = true ∧ Node.get (components path) fs = some node := by
  unfold Lstat at h
  by_cases hv : validPath path = true
  · rw [if_pos hv] at h
    cases hg : Node.get (components path) fs with
    | none => simp [hg] at h
    | some n =>
      simp only [hg, Except.ok.injEq] at h
      exact ⟨hv, by rw [h]⟩
  · rw [if_neg hv] at h
    cases h

/-- The walk of `upload` over a directory it can read in full, from a root
under which `filepath.Walk` hands out paths that begin with the root, ends
without error, and the document it leaves is built from the bindings of the
entries, taken in the order of their names. -/
theorem deserialize_eq (fs : Node) (root : Str) (es : List (Str × Node))
    (hr : walkRoot root = true)
    (hget : Lstat fs root = .ok (.dir es))
    (hw : (Node.dir es).walkable (PATH_MAX - 1 - root.length) = true) :
    deserialize fs root = .ret none (buildDoc (sortByName (bindings es))) := by
  obtain ⟨hvalid, hnode⟩ := Lstat_ok fs root _ hget
  obtain ⟨hew, hnd⟩ := (Node.walkable_dir es _).1 hw
  have hok : PathOK (pathOf (stem root) []) (PATH_MAX - 1 - root.length) :=
    PathOK_stem root _ (PathOK_of_validPath root hvalid)
  have hes : Node.get (components (pathOf (stem root) [])) fs = some (.dir es) := by
    show Node.get (components (stem root)) fs = _
    rw [components_stem]
    exact hnode
  have hdp : ∀ n, plainName n = true → Join root n = pathOf (stem root) ([] ++ [n]) := by
    intro n hn
    rw [Join_root root n hr hn]
    simp [pathOf, childPath]
  have hsorted : ∀ e ∈ sortByName es, e ∈ es ∧ validName e.1 = true ∧ hasKey e.2 e.1 = true ∧
      e.1.length + 1 ≤ PATH_MAX - 1 - root.length ∧
      e.2.walkable (PATH_MAX - 1 - root.length - (e.1.length + 1)) = true ∧
      WalkSpec fs root e.2 := by
    intro e he
    have hmem : e ∈ es := (List.mem_insertionSort _).1 he
    obtain ⟨h1, h2, h3, h4⟩ := entriesWalkable_mem es _ hew e hmem
    exact ⟨hmem, h1, h2, h3, h4, walk_spec fs root hr e.2⟩
  have hroot : ∀ fi, RecursePath fs root "*.js".toList root fi none [] = .ret none [] := by
    intro fi
    simp [RecursePath]
  unfold deserialize Walk
  simp only [hget]
  rw [walk, hroot, walkEntries_eq_map, sortByName_map (fun e : Str × Node => (e.1, fun filename d => walk (RecursePath fs root "*.js".toList) e.2 filename e.1 d)) (fun _ => rfl)]
  have := walkNames_entries fs root [] (by simp) es _ root hdp hes hnd hok (sortByName es)
    hsorted []
  show walkNames _ _ root [] = _
  rw [this, ← sortByName_map (fun e : Str × Node => (e.1, binding e.2 e.1)) (fun _ => rfl), ← bindings_eq_map, applyAll_root]
  rfl

/-! ## The tree of a serializable document -/

mutual
theorem Value.induct_value (P : Value → Prop) (hstr : ∀ s, P (.str s))
    (hobj : ∀ m, (∀ e ∈ m, P e.2) → P (.obj m)) (hother : ∀ k, P (.other k)) : ∀ v, P v
  | .str s => hstr s
  | .obj m => hobj m (Value.induct_pairs P hstr hobj hother m)
  | .other k => hother k
theorem Value.induct_pairs (P : Value → Prop) (hstr : ∀ s, P (.str s))
    (hobj : ∀ m, (∀ e ∈ m, P e.2) → P (.obj m)) (hother : ∀ k, P (.other k)) :
    ∀ (m : Doc), ∀ e ∈ m, P e.2
  | [], _, he => by simp at he
  | (k, v) :: rest, e, he => by
    rcases List.mem_cons.1 he with h | h
    · rw [h]
      exact Value.induct_value P hstr hobj hother v
    · exact Value.induct_pairs P hstr hobj hother rest e h
end

theorem serializableDoc_mem (d : Doc) (room : Nat) (h : serializableDoc d room = true) :
    ∀ e ∈ d, keyOK e = true ∧ (entryName e).length + 1 ≤ room ∧
      serializable e.2 (room - ((entryName e).length + 1)) = true := by
  induction d with
  | nil => simp
  | cons e rest ih =>
    obtain ⟨k, v⟩ := e
    obtain ⟨h1, h2, h3, h4⟩ := (serializableDoc_cons k v rest room).1 h
    intro e he
    rcases List.mem_cons.1 he with h | h
    · rw [h]
      exact ⟨h1, h2, h3⟩
    · exact ih h4 e h

theorem serializable_not_other (k : Kind) (room : Nat) : serializable (.other k) room ≠ true := by
  simp [serializable]

theorem treeOf_eq_map (d : Doc) (room : Nat) (h : serializableDoc d room = true) :
    treeOf d = d.map entryNode := by
  induction d with
  | nil => simp [treeOf]
  | cons e rest ih =>
    obtain ⟨k, v⟩ := e
    obtain ⟨-, -, h2, h3⟩ := (serializableDoc_cons k v rest room).1 h
    rw [treeOf, ih h3]
    cases v with
    | str s => simp [treeOfEntry, entryNode]
    | obj m => simp [treeOfEntry, entryNode]
    | other kd => exact absurd h2 (serializable_not_other _ _)

theorem entryNode_fst (e : Str × Value) (room : Nat) (h : serializable e.2 room = true) :
    (entryNode e).1 = entryName e := by
  obtain ⟨k, v⟩ := e
  cases v with
  | str s => rfl
  | obj m => rfl
  | other kd => exact absurd h (serializable_not_other _ _)

theorem treeOf_names (d : Doc) (room : Nat) (h : serializableDoc d room = true) :
    (treeOf d).map Prod.fst = d.map entryName := by
  rw [treeOf_eq_map d room h, List.map_map]
  apply List.map_congr_left
  intro e he
  exact entryNode_fst e _ (serializableDoc_mem d room h e he).2.2

theorem entriesWalkable_of_mem (es : List (Str × Node)) (room : Nat)
    (h : ∀ e ∈ es, validName e.1 = true ∧ hasKey e.2 e.1 = true ∧ e.1.length + 1 ≤ room ∧
      e.2.walkable (room - (e.1.length + 1)) = true) :
    entriesWalkable es room = true := by
  induction es with
  | nil => rfl
  | cons e rest ih =>
    obtain ⟨n, c⟩ := e
    obtain ⟨h1, h2, h3, h4⟩ := h (n, c) (by simp)
    simp only [entriesWalkable, Bool.and_eq_true, decide_eq_true_eq]
    exact ⟨⟨⟨⟨h1, h2⟩, h3⟩, h4⟩, ih (fun e he => h e (by simp [he]))⟩

theorem treeOf_walkable (v : Value) :
    ∀ room, serializable v room = true → ∀ m, v = .obj m →
      (Node.dir (treeOf m)).walkable room = true := by
  induction v using Value.induct_value with
  | hstr s =>
    intro _ _ m hm
    cases hm
  | hother k =>
    intro _ _ m hm
    cases hm
  | hobj m ih =>
    intro room hs m' hm
    cases hm
    obtain ⟨hdoc, -, hnames⟩ := (serializable_obj m room).1 hs
    have hmem := serializableDoc_mem m room hdoc
    have key : ∀ e ∈ treeOf m, validName e.1 = true ∧ hasKey e.2 e.1 = true ∧
        e.1.length + 1 ≤ room ∧ e.2.walkable (room - (e.1.length + 1)) = true := by
      rw [treeOf_eq_map m room hdoc]
      intro e he
      obtain ⟨e0, he0, rfl⟩ := List.mem_map.1 he
      obtain ⟨hk, hlen, hser⟩ := hmem e0 he0
      obtain ⟨hne, hvn⟩ := (keyOK_iff e0).1 hk
      obtain ⟨k, v⟩ := e0
      cases v with
      | str s =>
        refine ⟨hvn, ?_, hlen, rfl⟩
        simp only [entryNode, hasKey, decide_eq_true_eq]
        intro e
        apply hne
        have := congrArg List.length e
        simp only [List.length_append] at this
        exact List.length_eq_zero.1 (by simpa using this)
      | obj m0 => exact ⟨hvn, rfl, hlen, ih (k, .obj m0) he0 _ hser m0 rfl⟩
      | other kd => exact absurd hser (serializable_not_other _ _)
    rw [Node.walkable_dir, treeOf_names m room hdoc]
    exact ⟨entriesWalkable_of_mem _ _ key, hnames⟩

/-! ## The document read back from the tree of a serializable document -/

theorem foldl_addBinding_eq (l : List (Str × Option (Str × Value))) (d : Doc)
    (h : ((d ++ l.filterMap Prod.snd).map Prod.fst).Nodup) :
    l.foldl addBinding d = d ++ l.filterMap Prod.snd := by
  induction l generalizing d with
  | nil => simp
  | cons e rest ih =>
    obtain ⟨n, b⟩ := e
    cases b with
    | none =>
      simp only [List.foldl_cons, addBinding]
      have : List.filterMap Prod.snd ((n, (none : Option (Str × Value))) :: rest)
          = List.filterMap Prod.snd rest := rfl
      rw [this] at h ⊢
      exact ih d h
    | some kv =>
      obtain ⟨k, v⟩ := kv
      have e1 : List.filterMap Prod.snd ((n, some (k, v)) :: rest)
          = (k, v) :: List.filterMap Prod.snd rest := by simp
      rw [e1] at h ⊢
      have hk : mapGet d k = none := by
        rw [mapGet_eq_none_iff]
        intro hmem
        rw [List.map_append, List.nodup_append] at h
        exact h.2.2 hmem (by rw [List.map_cons]; exact List.mem_cons_self _ _)
      simp only [List.foldl_cons, addBinding]
      rw [mapSet_of_absent d k v hk, ih]
      · simp
      · simpa using h

theorem binding_js_file (x content : Str) (rd : Bool) (hx : '/' ∉ x) :
    binding (.file content rd) (x ++ ".js".toList) = some (x, .str content) := by
  simp only [binding, globMatch_star_js_of x hx, if_true]
  simp

theorem keyOK_no_slash (e : Str × Value) (hk : keyOK e = true) : '/' ∉ e.1 := by
  obtain ⟨-, hvn⟩ := (keyOK_iff e).1 hk
  have hp := ((plainName_iff _).1 ((validName_iff _).1 hvn).1).2.1
  obtain ⟨k, v⟩ := e
  cases v with
  | str s => exact fun h => hp (List.mem_append_left _ h)
  | obj m => exact hp
  | other kd => exact hp

theorem bindingOf_entryNode (e : Str × Value) (room : Nat) (hk : keyOK e = true)
    (hs : serializable e.2 room = true) :
    binding (entryNode e).2 (entryNode e).1 = some (e.1, valueOf e.2) := by
  have hsl := keyOK_no_slash e hk
  obtain ⟨k, v⟩ := e
  cases v with
  | str s => exact binding_js_file k s true hsl
  | obj m => rfl
  | other kd => exact absurd hs (serializable_not_other _ _)

theorem readBack_perm (m : Doc) (room : Nat) (hdoc : serializableDoc m room = true)
    (hkeys : (m.map Prod.fst).Nodup) :
    (buildDoc (sortByName (bindings (treeOf m)))).Perm (m.map (fun e => (e.1, valueOf e.2))) := by
  have hmem := serializableDoc_mem m room hdoc
  have hfm : (sortByName (bindings (treeOf m))).filterMap Prod.snd
      |>.Perm (m.map (fun e => (e.1, valueOf e.2))) := by
    have h1 : ((sortByName (bindings (treeOf m))).filterMap Prod.snd).Perm
        ((bindings (treeOf m)).filterMap Prod.snd) := (sortByName_perm _).filterMap _
    have h2 : (bindings (treeOf m)).filterMap Prod.snd = m.map (fun e => (e.1, valueOf e.2)) := by
      rw [bindings_eq_map, treeOf_eq_map m room hdoc, List.map_map, List.filterMap_map]
      clear hkeys hdoc h1
      induction m with
      | nil => rfl
      | cons e rest ih =>
        have he := hmem e (by simp)
        simp only [List.filterMap_cons, Function.comp, bindingOf_entryNode e _ he.1 he.2.2,
          List.map_cons]
        rw [ih (fun e' he' => hmem e' (by simp [he']))]
    rw [h2] at h1
    exact h1
  have hnd : (([] ++ (sortByName (bindings (treeOf m))).filterMap Prod.snd).map Prod.fst).Nodup := by
    rw [List.nil_append]
    have := (hfm.map Prod.fst).nodup_iff.2
    apply this
    rw [List.map_map]
    exact hkeys
  unfold buildDoc
  rw [foldl_addBinding_eq _ [] hnd, List.nil_append]
  exact hfm

theorem subDoc_of_mem (m n : Doc)
    (h : ∀ e ∈ m, ∃ v', mapGet n e.1 = some v' ∧ deepEqual e.2 v' = true) :
    subDoc m n = true := by
  induction m with
  | nil => rfl
  | cons e rest ih =>
    obtain ⟨k, v⟩ := e
    obtain ⟨v', hv1, hv2⟩ := h (k, v) (by simp)
    simp only [subDoc, hv1, hv2, Bool.true_and]
    exact ih (fun e he => h e (by simp [he]))

theorem deepEqual_valueOf (v : Value) :
    ∀ room, serializable v room = true →
      deepEqual v (valueOf v) = true ∧ deepEqual (valueOf v) v = true := by
  induction v using Value.induct_value with
  | hstr s =>
    intro _ _
    simp [valueOf, deepEqual]
  | hother k =>
    intro _ h
    exact absurd h (serializable_not_other _ _)
  | hobj m ih =>
    intro room hs
    obtain ⟨hdoc, hkeys, -⟩ := (serializable_obj m room).1 hs
    have hmem := serializableDoc_mem m room hdoc
    have hperm := readBack_perm m room hdoc hkeys
    have hlen : (buildDoc (sortByName (bindings (treeOf m)))).length = m.length := by
      rw [hperm.length_eq, List.length_map]
    have hnd : ((buildDoc (sortByName (bindings (treeOf m)))).map Prod.fst).Nodup := by
      rw [(hperm.map Prod.fst).nodup_iff, List.map_map]
      exact hkeys
    constructor
    · simp only [valueOf, deepEqual, hlen, decide_True, Bool.true_and]
      apply subDoc_of_mem
      intro e he
      refine ⟨valueOf e.2, ?_, (ih e he _ (hmem e he).2.2).1⟩
      apply mapGet_of_mem _ _ _ hnd
      exact hperm.mem_iff.2 (List.mem_map.2 ⟨e, he, rfl⟩)
    · simp only [valueOf, deepEqual, hlen, decide_True, Bool.true_and]
      apply subDoc_of_mem
      intro e he
      obtain ⟨e0, he0, rfl⟩ := List.mem_map.1 (hperm.mem_iff.1 he)
      refine ⟨e0.2, ?_, (ih e0 he0 _ (hmem e0 he0).2.2).2⟩
      exact mapGet_of_mem m e0.1 e0.2 hkeys he0

/-! ## The round trip -/

theorem Lstat_written (fs : Node) (root : Str) (old new : Node)
    (h : Lstat fs root = .ok old) :
    Lstat (Node.setAt (components root) new fs) root = .ok new := by
  obtain ⟨hv, hg⟩ := Lstat_ok fs root old h
  unfold Lstat
  rw [if_pos hv, Node.get_setAt _ _ _ _ hg]

/-- C1 (amended): for every document whose values are all Leaf strings or
nested Objects, whose keys are non-empty and hold neither `/` nor a NUL byte
(an Object key being neither `.` nor `..`), of which no Object key is a Leaf
key followed by `.js`, and whose entry names (`key.js`, `key`) are at most
`NAME_MAX` = 255 bytes long on paths that stay below `PATH_MAX` = 4096 bytes,
serialized by `recurseDocument` into an empty directory `base/path` that is
`/`, or a path that `filepath.Clean` leaves unchanged other than `.` and `/`,
with or without one more `/` at its end: the serializer returns normally, and
the walk of that same directory with `RecursePath` and the filter `*.js` ends
without error with a document deeply equal to the original. -/
theorem recurseDocument_then_walk_deepEqual (base path : Str) (doc : Doc) (w : World)
    (hroot : walkRoot (base ++ "/".toList ++ path) = true)
    (hempty : Lstat w.fs (base ++ "/".toList ++ path) = .ok (.dir []))
    (hdoc : serializable (.obj doc) (PATH_MAX - 1 - (base ++ "/".toList ++ path).length) = true) :
    ∃ w', recurseDocument doc base path w = .done w' ∧
      ∃ doc', deserialize w'.fs (base ++ "/".toList ++ path) = .ret none doc' ∧
        deepEqual (.obj doc) (.obj doc') = true ∧ deepEqual (.obj doc') (.obj doc) = true := by
  have e : base ++ "/".toList ++ path = base ++ '/' :: path := by simp
  rw [e] at hroot hempty hdoc ⊢
  obtain ⟨hvalid, hget⟩ := Lstat_ok _ _ _ hempty
  obtain ⟨hser, -, hnames⟩ := (serializable_obj doc _).1 hdoc
  obtain ⟨log', hrun⟩ := recurseDocument_writes base doc path w [] _
    (PathOK_of_validPath _ hvalid) hget hser (by simp) hnames
  refine ⟨_, hrun, ?_⟩
  have hl := Lstat_written w.fs (base ++ '/' :: path) (.dir []) (.dir ([] ++ treeOf doc)) hempty
  rw [List.nil_append] at hl
  refine ⟨_, deserialize_eq _ _ (treeOf doc) hroot ?_ (treeOf_walkable (.obj doc) _ hdoc doc rfl), ?_⟩
  · rw [List.nil_append]
    exact hl
  · exact deepEqual_valueOf (.obj doc) _ hdoc

/-- C1 (amended) at the document `{views: {all: {map: "function"}}, x: "c"}`
and the empty directory `r/v1`. -/
theorem recurseDocument_then_walk_deepEqual_witness :
    ∃ w', recurseDocument
        [("views".toList, .obj [("all".toList, .obj [("map".toList, .str "function".toList)])]),
         ("x".toList, .str "c".toList)]
        "r".toList "v1".toList ⟨.dir [("r".toList, .dir [("v1".toList, .dir [])])], []⟩
        = .done w' ∧
      ∃ doc', deserialize w'.fs ("r".toList ++ "/".toList ++ "v1".toList) = .ret none doc' ∧
        deepEqual
          (.obj [("views".toList,
              .obj [("all".toList, .obj [("map".toList, .str "function".toList)])]),
            ("x".toList, .str "c".toList)])
          (.obj doc') = true ∧
        deepEqual (.obj doc')
          (.obj [("views".toList,
              .obj [("all".toList, .obj [("map".toList, .str "function".toList)])]),
            ("x".toList, .str "c".toList)]) = true :=
  recurseDocument_then_walk_deepEqual "r".toList "v1".toList
    [("views".toList, .obj [("all".toList, .obj [("map".toList, .str "function".toList)])]),
     ("x".toList, .str "c".toList)]
    ⟨.dir [("r".toList, .dir [("v1".toList, .dir [])])], []⟩
    (by decide) rfl (by decide)

/-! ## The key-path of a leaf -/

theorem mapGet_mem {α : Type} (m : List (Str × α)) (k : Str) (v : α)
    (h : mapGet m k = some v) : (k, v) ∈ m := by
  induction m with
  | nil => simp [mapGet] at h
  | cons e rest ih =>
    obtain ⟨k', w⟩ := e
    by_cases hk : k' = k
    · subst hk
      simp only [mapGet, if_true, Option.some.injEq] at h
      rw [h]
      exact List.mem_cons_self _ _
    · simp only [mapGet, hk, if_false] at h
      exact List.mem_cons_of_mem _ (ih h)

theorem Node.get_append_list (a b : List Str) (root : Node) :
    Node.get (a ++ b) root = (Node.get a root).bind (Node.get b) := by
  induction a generalizing root with
  | nil => rfl
  | cons c rest ih =>
    cases root with
    | file c' r => rfl
    | dir es =>
      simp only [List.cons_append, Node.get]
      cases mapGet es c with
      | none => rfl
      | some child => exact ih child

theorem getPath_cons_not_obj (x : Str) (rest : List Str) (v : Value) (r : Value)
    (h : getPath (x :: rest) v = some r) : ∃ m, v = .obj m := by
  cases v with
  | obj m => exact ⟨m, rfl⟩
  | str s => simp [getPath] at h
  | other k => simp [getPath] at h

theorem mapGet_buildDoc (m : Doc) (room : Nat) (hdoc : serializableDoc m room = true)
    (hkeys : (m.map Prod.fst).Nodup) (k : Str) (v : Value) (h : (k, v) ∈ m) :
    mapGet (buildDoc (sortByName (bindings (treeOf m)))) k = some (valueOf v) := by
  have hperm := readBack_perm m room hdoc hkeys
  have hnd : ((buildDoc (sortByName (bindings (treeOf m)))).map Prod.fst).Nodup := by
    rw [(hperm.map Prod.fst).nodup_iff, List.map_map]
    exact hkeys
  apply mapGet_of_mem _ _ _ hnd
  exact hperm.mem_iff.2 (List.mem_map.2 ⟨(k, v), h, rfl⟩)

theorem mapGet_treeOf (m : Doc) (room : Nat) (hdoc : serializableDoc m room = true)
    (hnames : (m.map entryName).Nodup) (e : Str × Value) (h : e ∈ m) :
    mapGet (treeOf m) (entryNode e).1 = some (entryNode e).2 := by
  apply mapGet_of_mem
  · rw [treeOf_names m room hdoc]
    exact hnames
  · rw [treeOf_eq_map m room hdoc]
    exact List.mem_map.2 ⟨e, h, rfl⟩

theorem pathOf_cons (p x : Str) (rest : List Str) :
    pathOf p (x :: rest) = pathOf (p ++ '/' :: x) rest := by
  simp [pathOf, childPath]

theorem pathOf_under (a p : Str) (ks : List Str) :
    pathOf (a ++ '/' :: p) ks = a ++ '/' :: pathOf p ks := by
  induction ks generalizing p with
  | nil => rfl
  | cons x rest ih =>
    rw [pathOf_cons, pathOf_cons, ← ih]
    simp

theorem leafFilename_pathOf (base path : Str) (ks : List Str) (k : Str) :
    leafFilename base (ks.foldl childPath path) k
      = pathOf (base ++ '/' :: path) (ks ++ [k ++ ".js".toList]) := by
  rw [pathOf_concat, pathOf_under]
  simp [leafFilename, pathOf]

theorem foldl_Join (r : Str) (hr : Stable r) (ks : List Str)
    (hks : ∀ k ∈ ks, plainName k = true) : ks.foldl Join r = pathOf r ks := by
  induction ks using List.reverseRecOn with
  | nil => rfl
  | append_singleton ks n ih =>
    rw [List.foldl_append, List.foldl_cons, List.foldl_nil,
      ih (fun k hk => hks k (by simp [hk])), pathOf_concat]
    exact Join_stable _ n (Stable_pathOf r ks hr (fun k hk => hks k (by simp [hk])))
      (hks n (by simp))

/-- A Leaf of a serializable document, at the key-path `ks ++ [k]`: the keys
on the way are names of directories, the tree of the document has the file
`k.js` with the Leaf as its content at the end of the same names, the path of
that file fits, and the document read back has the Leaf at the key-path. -/
theorem leaf_at (k s : Str) : ∀ (ks : List Str) (doc : Doc) (room : Nat),
    serializable (.obj doc) room = true →
    getPath (ks ++ [k]) (.obj doc) = some (.str s) →
    (∀ x ∈ ks, plainName x = true) ∧ k ≠ [] ∧ '/' ∉ k ∧
    Node.get (ks ++ [k ++ ".js".toList]) (.dir (treeOf doc)) = some (.file s true) ∧
    getPath (ks ++ [k]) (valueOf (.obj doc)) = some (.str s) ∧
    ∀ p, PathOK p room → PathOK (pathOf p (ks ++ [k ++ ".js".toList])) 0
  | [], doc, room, hser, hleaf => by
    obtain ⟨hdoc, hkeys, hnames⟩ := (serializable_obj doc room).1 hser
    rw [List.nil_append, getPath_cons_obj] at hleaf
    cases hg : mapGet doc k with
    | none => simp [hg] at hleaf
    | some v =>
      rw [hg] at hleaf
      simp only [Option.some_bind, getPath, Option.some.injEq] at hleaf
      subst hleaf
      have hmem := mapGet_mem doc k _ hg
      obtain ⟨hk, hlen, -⟩ := serializableDoc_mem doc room hdoc _ hmem
      obtain ⟨hne, hvn⟩ := (keyOK_iff _).1 hk
      have hsl := keyOK_no_slash _ hk
      have ht := mapGet_treeOf doc room hdoc hnames _ hmem
      have hb := mapGet_buildDoc doc room hdoc hkeys k _ hmem
      refine ⟨by simp, hne, hsl, ?_, ?_, ?_⟩
      · simp only [entryNode] at ht
        simp only [List.nil_append, Node.get]
        rw [ht]
      · rw [List.nil_append, valueOf, getPath_cons_obj, hb]
        rfl
      · intro p hp
        rw [List.nil_append, pathOf_cons]
        exact PathOK_mono _ _ 0 (PathOK_extend p _ room hp hvn hlen) (Nat.zero_le _)
  | x :: rest, doc, room, hser, hleaf => by
    obtain ⟨hdoc, hkeys, hnames⟩ := (serializable_obj doc room).1 hser
    rw [List.cons_append, getPath_cons_obj] at hleaf
    cases hg : mapGet doc x with
    | none => simp [hg] at hleaf
    | some v =>
      rw [hg] at hleaf
      simp only [Option.some_bind] at hleaf
      have hv : ∃ m, v = .obj m := by
        cases rest with
        | nil => exact getPath_cons_not_obj _ _ _ _ hleaf
        | cons y t => exact getPath_cons_not_obj _ _ _ _ hleaf
      obtain ⟨m, rfl⟩ := hv
      have hmem := mapGet_mem doc x _ hg
      obtain ⟨hk, hlen, hsub⟩ := serializableDoc_mem doc room hdoc _ hmem
      obtain ⟨hne, hvn⟩ := (keyOK_iff _).1 hk
      have hpl : plainName x = true := ((validName_iff _).1 hvn).1
      have ht := mapGet_treeOf doc room hdoc hnames _ hmem
      have hb := mapGet_buildDoc doc room hdoc hkeys x _ hmem
      obtain ⟨h1, h2, h3, h4, h5, h6⟩ := leaf_at k s rest m _ hsub hleaf
      refine ⟨?_, h2, h3, ?_, ?_, ?_⟩
      · intro y hy
        rcases List.mem_cons.1 hy with e | e
        · rw [e]
          exact hpl
        · exact h1 y e
      · simp only [entryNode] at ht
        simp only [List.cons_append, Node.get, ht]
        exact h4
      · rw [List.cons_append, valueOf, getPath_cons_obj, hb]
        exact h5
      · intro p hp
        rw [List.cons_append, pathOf_cons]
        exact h6 _ (PathOK_extend p x room hp hvn hlen)

/-- C8 (amended): for every root `R = base/path` that does not end in `/` and
that `filepath.Clean` leaves unchanged, other than `.`, every document that
`recurseDocument` can write out below the empty directory `R` (as in the
round trip: Leaf strings and Objects, keys non-empty without `/` or NUL byte,
Object keys neither `.` nor `..` nor a Leaf key followed by `.js`, names and
paths within the limits of the file system), and every key-path `k1..kn` (here
`ks ++ [k]`) at which the document holds a Leaf `s`: the file the serializer
names for the Leaf is `R/k1/../kn.js`; this is the path `filepath.Walk` builds
for it with `filepath.Join` from `R` down; `recurseDocument` returns normally
and that file then holds `s`; `RecursePath`, called on that path, derives the
key `k1/../kn` (cut the last three bytes, `removeBasePath(R, .)`), which
splits on `/` into `[k1, .., kn]`, and puts `s` there; and the walk of `R`
ends without error with a document that holds `s` at the key-path
`[k1, .., kn]`. -/
theorem leaf_key_round_trip (base path : Str) (doc : Doc) (w : World) (ks : List Str)
    (k s : Str)
    (hroot : walkRoot (base ++ "/".toList ++ path) = true)
    (hslash : (base ++ "/".toList ++ path).getLast? ≠ some '/')
    (hempty : Lstat w.fs (base ++ "/".toList ++ path) = .ok (.dir []))
    (hdoc : serializable (.obj doc) (PATH_MAX - 1 - (base ++ "/".toList ++ path).length) = true)
    (hleaf : getPath (ks ++ [k]) (.obj doc) = some (.str s)) :
    leafFilename base (ks.foldl childPath path) k
        = base ++ "/".toList ++ path ++ "/".toList ++ joinSlash (ks ++ [k]) ++ ".js".toList ∧
    Join (ks.foldl Join (base ++ "/".toList ++ path)) (k ++ ".js".toList)
        = leafFilename base (ks.foldl childPath path) k ∧
    ∃ w', recurseDocument doc base path w = .done w' ∧
      ReadFile w'.fs (leafFilename base (ks.foldl childPath path) k) = .ok s ∧
      fileKey (base ++ "/".toList ++ path) (leafFilename base (ks.foldl childPath path) k)
        = some (joinSlash (ks ++ [k])) ∧
      Split (joinSlash (ks ++ [k])) '/' = ks ++ [k] ∧
      (∀ d, RecursePath w'.fs (base ++ "/".toList ++ path) "*.js".toList
          (leafFilename base (ks.foldl childPath path) k) (some ⟨k ++ ".js".toList, false⟩) none d
        = walkResult (put (joinSlash (ks ++ [k])) (.str s) d)) ∧
      ∃ doc', deserialize w'.fs (base ++ "/".toList ++ path) = .ret none doc' ∧
        getPath (ks ++ [k]) (.obj doc') = some (.str s) := by
  have e : base ++ "/".toList ++ path = base ++ '/' :: path := by simp
  rw [e] at hroot hslash hempty hdoc ⊢
  have hstem : stem (base ++ '/' :: path) = base ++ '/' :: path := by
    unfold stem
    rw [if_neg hslash]
  have hst : Stable (base ++ '/' :: path) := by
    rcases Stable_of_walkRoot _ hroot with h | h
    · rw [h] at hslash
      exact absurd rfl hslash
    · rw [hstem] at h
      exact h
  obtain ⟨hvalid, hget⟩ := Lstat_ok _ _ _ hempty
  have hokR := PathOK_of_validPath _ hvalid
  obtain ⟨hser, -, hnames⟩ := (serializable_obj doc _).1 hdoc
  obtain ⟨hks, hkne, hksl, htree, hback, hfit⟩ := leaf_at k s ks doc _ hdoc hleaf
  have hjs : plainName (k ++ ".js".toList) = true := plainName_js k hksl
  have hall : ∀ x ∈ ks ++ [k ++ ".js".toList], plainName x = true := by
    intro x hx
    rcases List.mem_append.1 hx with h | h
    · exact hks x h
    · simp only [List.mem_singleton] at h
      rw [h]
      exact hjs
  have hname := leafFilename_pathOf base path ks k
  have hshape : pathOf (base ++ '/' :: path) (ks ++ [k ++ ".js".toList])
      = base ++ '/' :: path ++ '/' :: joinSlash (ks ++ [k]) ++ ".js".toList := by
    rw [pathOf_eq _ _ (by simp), joinSlash_concat_append]
    simp
  have hsplit : Split (joinSlash (ks ++ [k])) '/' = ks ++ [k] :=
    Split_joinSlash _ (by simp) (by
      intro x hx
      rcases List.mem_append.1 hx with h | h
      · exact ((plainName_iff x).1 (hks x h)).2.1
      · simp only [List.mem_singleton] at h
        rw [h]
        exact hksl)
  obtain ⟨log', hrun⟩ := recurseDocument_writes base doc path w [] _ hokR hget hser
    (by simp) hnames
  rw [List.nil_append] at hrun
  have hvalidf : validPath (pathOf (base ++ '/' :: path) (ks ++ [k ++ ".js".toList])) = true :=
    PathOK_valid _ _ (hfit _ hokR) (pathOf_entry_ne_nil _ _ _)
  have hgetf : Node.get (components (pathOf (base ++ '/' :: path) (ks ++ [k ++ ".js".toList])))
      (Node.setAt (components (base ++ '/' :: path)) (.dir (treeOf doc)) w.fs)
      = some (.file s true) := by
    rw [components_pathOf _ _ hall, Node.get_append_list, Node.get_setAt _ _ _ _ hget]
    exact htree
  refine ⟨?_, ?_, _, hrun, ?_, ?_, hsplit, ?_, ?_⟩
  · rw [hname, hshape]
    simp
  · rw [hname, foldl_Join _ hst ks hks, pathOf_concat]
    exact Join_stable _ _ (Stable_pathOf _ ks hst hks) hjs
  · rw [hname]
    unfold ReadFile
    rw [if_pos hvalidf, hgetf]
  · rw [hname, pathOf_eq _ _ (by simp)]
    have := fileKey_root (base ++ '/' :: path) ks k hroot (Or.inr hkne)
    rw [hstem] at this
    exact this
  · intro d
    have := RecursePath_file _ (base ++ '/' :: path) hroot ks (k ++ ".js".toList) d s hks hjs
      (by
        intro e
        apply hkne
        have := congrArg List.length e
        simp only [List.length_append] at this
        exact List.length_eq_zero.1 (by simpa using this))
      (by rw [hstem]; exact hvalidf) (by rw [hstem]; exact hgetf)
    rw [hstem] at this
    rw [hname, this, binding_js_file k s true hksl]
    simp only [applyBinding]
    rw [put_joinSlash ks k _ d (fun x hx => ((plainName_iff x).1 (hks x hx)).2.1) hksl]
  · have hl := Lstat_written w.fs (base ++ '/' :: path) (.dir []) (.dir (treeOf doc)) hempty
    refine ⟨_, deserialize_eq _ _ (treeOf doc) hroot hl
      (treeOf_walkable (.obj doc) _ hdoc doc rfl), ?_⟩
    exact hback

/-- C8 (amended) at the root `db/v1`, the document
`{views: {all: {map: "function"}}, x: "c"}` and the key-path `views/all/map`. -/
theorem leaf_key_round_trip_witness :
    leafFilename "db".toList (["views".toList, "all".toList].foldl childPath "v1".toList)
        "map".toList
        = "db".toList ++ "/".toList ++ "v1".toList ++ "/".toList
            ++ joinSlash (["views".toList, "all".toList] ++ ["map".toList]) ++ ".js".toList ∧
    Join (["views".toList, "all".toList].foldl Join ("db".toList ++ "/".toList ++ "v1".toList))
        ("map".toList ++ ".js".toList)
        = leafFilename "db".toList (["views".toList, "all".toList].foldl childPath "v1".toList)
            "map".toList ∧
    ∃ w', recurseDocument
        [("views".toList, .obj [("all".toList, .obj [("map".toList, .str "function".toList)])]),
         ("x".toList, .str "c".toList)]
        "db".toList "v1".toList ⟨.dir [("db".toList, .dir [("v1".toList, .dir [])])], []⟩
        = .done w' ∧
      ReadFile w'.fs
        (leafFilename "db".toList (["views".toList, "all".toList].foldl childPath "v1".toList)
          "map".toList) = .ok "function".toList ∧
      fileKey ("db".toList ++ "/".toList ++ "v1".toList)
        (leafFilename "db".toList (["views".toList, "all".toList].foldl childPath "v1".toList)
          "map".toList)
        = some (joinSlash (["views".toList, "all".toList] ++ ["map".toList])) ∧
      Split (joinSlash (["views".toList, "all".toList] ++ ["map".toList])) '/'
        = ["views".toList, "all".toList] ++ ["map".toList] ∧
      (∀ d, RecursePath w'.fs ("db".toList ++ "/".toList ++ "v1".toList) "*.js".toList
          (leafFilename "db".toList (["views".toList, "all".toList].foldl childPath "v1".toList)
            "map".toList)
          (some ⟨"map".toList ++ ".js".toList, false⟩) none d
        = walkResult (put (joinSlash (["views".toList, "all".toList] ++ ["map".toList]))
            (.str "function".toList) d)) ∧
      ∃ doc', deserialize w'.fs ("db".toList ++ "/".toList ++ "v1".toList) = .ret none doc' ∧
        getPath (["views".toList, "all".toList] ++ ["map".toList]) (.obj doc')
          = some (.str "function".toList) :=
  leaf_key_round_trip "db".toList "v1".toList
    [("views".toList, .obj [("all".toList, .obj [("map".toList, .str "function".toList)])]),
     ("x".toList, .str "c".toList)]
    ⟨.dir [("db".toList, .dir [("v1".toList, .dir [])])], []⟩
    ["views".toList, "all".toList] "map".toList "function".toList
    (by decide) (by decide) rfl (by decide) (by decide)
end Couchtools
